import Mathlib

/-!
Verification of the grid-based land-use simulated-annealing optimizer
(SimulatedAnnealing_landuse.cpp): cell labels, the proximity scorer,
the multi-source BFS distance-field builder, and the annealing loop.

Doubles are modelled as rationals, distances as extended naturals
(the DBL_MAX sentinel becomes the top element), grids as lists of rows
matching the vector-of-vector representation, and the random source as
an abstract stream of naturals consumed through a cursor.  The C library
exp routine is modelled as an abstract function parameter.
-/

namespace LandUse

/-- Cell labels of the grid, from the CellType enum of the source. -/
inductive CellType where
| EMPTY
| RESIDENTIAL
| OFFICE
| COM_SHOP
| COM_CAFE
| TRANSPORT
| PUBLIC
| LANDSCAPE
| ROAD
deriving DecidableEq, Repr

open CellType

/-- Fixed land-use feature labels, in the order of the source's landUseTypes vector. -/
def landUseTypes : List CellType := [TRANSPORT, PUBLIC, LANDSCAPE, ROAD]

/-- Relocatable agent labels, in the order of the source's agentTypes vector. -/
def agentTypes : List CellType := [RESIDENTIAL, OFFICE, COM_SHOP, COM_CAFE]

/-- Membership check of a cell label among the agent labels, as in the
source's find over agentTypes. -/
def isAgentCell (c : CellType) : Bool := decide (c ∈ agentTypes)

/-- The preference table of the source, one rational weight per fixed feature
label; labels absent from the source map give the empty list, matching the
default-constructed vector of the map subscript operator. -/
def agentPreferences : CellType → List ℚ
| RESIDENTIAL => [1, 2, 3, -5]
| OFFICE => [4, 1, 0, 2]
| COM_SHOP => [5, 3, 0, 3]
| COM_CAFE => [2, 4, 1, -1]
| _ => []

/-- A grid is a list of rows of cell labels, as vector-of-vector in the source. -/
abbrev Grid : Type := List (List CellType)

/-- Read the cell at row i, column j. -/
def cellAt (g : Grid) (i j : ℕ) : CellType := (g.getD i []).getD j EMPTY

/-- Write value v at row i, column j. -/
def setCell (g : Grid) (i j : ℕ) (v : CellType) : Grid :=
  g.set i ((g.getD i []).set j v)

/-- The grid has exactly R rows of C cells each. -/
def gridWF (R C : ℕ) (g : Grid) : Prop :=
  g.length = R ∧ ∀ r ∈ g, r.length = C

instance (R C : ℕ) (g : Grid) : Decidable (gridWF R C g) := by
  unfold gridWF; infer_instance

/-- A distance field: extended-natural distance per cell, top standing for the
unreachable DBL_MAX sentinel of the source. -/
abbrev DistMap : Type := ℕ → ℕ → ℕ∞

/-- A collection of distance fields indexed by feature label. -/
abbrev DistMaps : Type := CellType → ℕ → ℕ → ℕ∞

/-- Inner accumulation of calculateScore over the fixed feature labels for one
agent cell: each feature contributes preference over distance, skipped when the
distance is zero or still the unreachable sentinel. -/
def cellScoreAt (dmaps : DistMaps) (prefs : List ℚ) (i j : ℕ) : ℚ :=
  (List.range landUseTypes.length).foldl (fun s k =>
    let d := dmaps (landUseTypes.getD k EMPTY) i j
    if 0 < d ∧ d < ⊤ then s + prefs.getD k 0 / (d.toNat : ℚ) else s) 0

/-- The scorer of the source (calculateScore): row-major accumulation over the
grid, skipping cells that do not hold an agent label. -/
def calculateScore (R C : ℕ) (g : Grid) (dmaps : DistMaps)
    (prefs : CellType → List ℚ) : ℚ :=
  (List.range R).foldl (fun acc i =>
    (List.range C).foldl (fun acc2 j =>
      if isAgentCell (cellAt g i j) then
        acc2 + cellScoreAt dmaps (prefs (cellAt g i j)) i j
      else acc2) acc) 0

/-- One term of the specification score: preference weight over distance,
excluded (zero) when the distance is zero or the unreachable sentinel. -/
def specTerm (dmaps : DistMaps) (w : List ℚ) (i j k : ℕ) : ℚ :=
  if dmaps (landUseTypes.getD k EMPTY) i j = 0 ∨
      dmaps (landUseTypes.getD k EMPTY) i j = ⊤ then 0
  else w.getD k 0 / ((dmaps (landUseTypes.getD k EMPTY) i j).toNat : ℚ)

/-- The specification total score: the sum over every cell holding an agent
label of the sum over every fixed feature label of preference over distance,
cells with the empty or a fixed-feature label contributing nothing. -/
def specScore (R C : ℕ) (g : Grid) (dmaps : DistMaps)
    (prefs : CellType → List ℚ) : ℚ :=
  ∑ p in Finset.range R ×ˢ Finset.range C,
    if isAgentCell (cellAt g p.1 p.2) then
      ∑ k in Finset.range landUseTypes.length,
        specTerm dmaps (prefs (cellAt g p.1 p.2)) p.1 p.2 k
    else 0

theorem foldl_guard_add (l : List ℕ) (p : ℕ → Prop) [DecidablePred p]
    (f : ℕ → ℚ) (a : ℚ) :
    l.foldl (fun s k => if p k then s + f k else s) a
      = a + (l.map fun k => if p k then f k else 0).sum := by
  induction l generalizing a with
  | nil => simp
  | cons x t ih =>
    by_cases h : p x <;> simp [h, ih, add_assoc]

theorem sum_map_range (n : ℕ) (f : ℕ → ℚ) :
    ((List.range n).map f).sum = ∑ k in Finset.range n, f k := by
  induction n with
  | zero => simp
  | succ m ih =>
    rw [List.range_succ]
    simp [ih, Finset.sum_range_succ]

theorem guard_term_eq (d : ℕ∞) (w : ℚ) :
    (if 0 < d ∧ d < ⊤ then w / (d.toNat : ℚ) else 0)
      = if d = 0 ∨ d = ⊤ then 0 else w / (d.toNat : ℚ) := by
  rcases eq_or_ne d 0 with h0 | h0
  · subst h0; simp
  · rcases eq_or_ne d ⊤ with ht | ht
    · subst ht; simp
    · simp [h0, ht, pos_iff_ne_zero, lt_top_iff_ne_top]

theorem cellScoreAt_eq_sum (dmaps : DistMaps) (prefs : List ℚ) (i j : ℕ) :
    cellScoreAt dmaps prefs i j
      = ∑ k in Finset.range landUseTypes.length, specTerm dmaps prefs i j k := by
  unfold cellScoreAt
  rw [foldl_guard_add (p := fun k =>
      0 < dmaps (landUseTypes.getD k EMPTY) i j ∧
        dmaps (landUseTypes.getD k EMPTY) i j < ⊤)
    (f := fun k => prefs.getD k 0 /
      ((dmaps (landUseTypes.getD k EMPTY) i j).toNat : ℚ))]
  rw [zero_add, sum_map_range]
  refine Finset.sum_congr rfl (fun k _ => ?_)
  exact guard_term_eq (dmaps (landUseTypes.getD k EMPTY) i j) (prefs.getD k 0)

theorem calculateScore_eq_specScore (R C : ℕ) (g : Grid) (dmaps : DistMaps)
    (prefs : CellType → List ℚ) :
    calculateScore R C g dmaps prefs = specScore R C g dmaps prefs := by
  unfold calculateScore specScore
  have hrow : ∀ i (acc : ℚ),
      (List.range C).foldl (fun acc2 j =>
        if isAgentCell (cellAt g i j) then
          acc2 + cellScoreAt dmaps (prefs (cellAt g i j)) i j
        else acc2) acc
      = acc + ∑ j in Finset.range C,
          (if isAgentCell (cellAt g i j) then
            ∑ k in Finset.range landUseTypes.length,
              specTerm dmaps (prefs (cellAt g i j)) i j k
          else 0) := by
    intro i acc
    rw [foldl_guard_add (p := fun j => isAgentCell (cellAt g i j) = true)
      (f := fun j => cellScoreAt dmaps (prefs (cellAt g i j)) i j)]
    congr 1
    rw [sum_map_range]
    refine Finset.sum_congr rfl (fun j _ => ?_)
    by_cases h : isAgentCell (cellAt g i j) = true
    · simp [h, cellScoreAt_eq_sum]
    · simp [h]
  have houter : ∀ (l : List ℕ) (acc : ℚ),
      l.foldl (fun acc i =>
        (List.range C).foldl (fun acc2 j =>
          if isAgentCell (cellAt g i j) then
            acc2 + cellScoreAt dmaps (prefs (cellAt g i j)) i j
          else acc2) acc) acc
      = acc + (l.map fun i => ∑ j in Finset.range C,
          (if isAgentCell (cellAt g i j) then
            ∑ k in Finset.range landUseTypes.length,
              specTerm dmaps (prefs (cellAt g i j)) i j k
          else 0)).sum := by
    intro l
    induction l with
    | nil => intro acc; simp
    | cons x t ih =>
      intro acc
      simp only [List.foldl_cons, List.map_cons, List.sum_cons]
      rw [ih, hrow]
      ring
  rw [houter, zero_add, sum_map_range, Finset.sum_product]

/-- C1: for every grid, distance-field collection and preference table where
every agent label on the grid has a weight sequence of length equal to the
number of fixed-feature labels, the total score of the scorer equals the sum,
over every cell holding an agent label, of the sum over every fixed-feature
label of preference weight over distance, a term being excluded whenever the
distance at that cell is zero or the unreachable sentinel, and cells holding
the empty label or a fixed-feature label contributing nothing. -/
theorem scorer_total_eq_spec (R C : ℕ) (g : Grid) (dmaps : DistMaps)
    (prefs : CellType → List ℚ)
    (_hlen : ∀ i ∈ Finset.range R, ∀ j ∈ Finset.range C,
      isAgentCell (cellAt g i j) = true →
      (prefs (cellAt g i j)).length = landUseTypes.length) :
    calculateScore R C g dmaps prefs = specScore R C g dmaps prefs :=
  calculateScore_eq_specScore R C g dmaps prefs

/-- Witness for C1 at a concrete 2-by-2 grid. -/
theorem scorer_total_eq_spec_witness :
    calculateScore 2 2 [[RESIDENTIAL, OFFICE], [TRANSPORT, EMPTY]]
        (fun _ _ _ => (1 : ℕ∞)) agentPreferences
      = specScore 2 2 [[RESIDENTIAL, OFFICE], [TRANSPORT, EMPTY]]
        (fun _ _ _ => (1 : ℕ∞)) agentPreferences :=
  scorer_total_eq_spec 2 2 [[RESIDENTIAL, OFFICE], [TRANSPORT, EMPTY]]
    (fun _ _ _ => (1 : ℕ∞)) agentPreferences (by decide)

/-- Pointwise update of a distance field at one cell. -/
def updateD (d : DistMap) (i j : ℕ) (v : ℕ∞) : DistMap :=
  fun a b => if a = i ∧ b = j then v else d a b

/-- In-bounds 4-connected neighbors of a cell, in the direction order of the
source's dx, dy arrays, with the bounds check of the source. -/
def neighborList (R C x y : ℕ) : List (ℕ × ℕ) :=
  (([((x : ℤ) - 1, (y : ℤ)), ((x : ℤ), (y : ℤ) + 1),
     ((x : ℤ) + 1, (y : ℤ)), ((x : ℤ), (y : ℤ) - 1)]).filter
    (fun c => decide (0 ≤ c.1 ∧ c.1 < (R : ℤ) ∧ 0 ≤ c.2 ∧ c.2 < (C : ℤ)))).map
    (fun c => (c.1.toNat, c.2.toNat))

/-- One relaxation of the BFS: when the neighbor improves through the popped
cell, assign the one-greater distance and push the neighbor at the back. -/
def relaxStep (x y : ℕ) (s : DistMap × List (ℕ × ℕ)) (c : ℕ × ℕ) :
    DistMap × List (ℕ × ℕ) :=
  if s.1 c.1 c.2 > s.1 x y + 1 then
    (updateD s.1 c.1 c.2 (s.1 x y + 1), s.2 ++ [c])
  else s

/-- Process one popped cell: relax its four neighbors in source order. -/
def processCell (R C : ℕ) (d : DistMap) (q : List (ℕ × ℕ)) (x y : ℕ) :
    DistMap × List (ℕ × ℕ) :=
  (neighborList R C x y).foldl (relaxStep x y) (d, q)

/-- The BFS loop of computeDistanceMaps with explicit fuel: pop the front of
the queue and relax its neighbors until the queue is empty. -/
def bfsAux (R C : ℕ) : ℕ → DistMap × List (ℕ × ℕ) → DistMap × List (ℕ × ℕ)
  | 0, s => s
  | _ + 1, (d, []) => (d, [])
  | fuel + 1, (d, (x, y) :: q) => bfsAux R C fuel (processCell R C d q x y)

/-- The initial distance field: zero on cells bearing the feature label,
the unreachable sentinel elsewhere. -/
def initDist (R C : ℕ) (g : Grid) (t : CellType) : DistMap :=
  fun i j => if i < R ∧ j < C ∧ cellAt g i j = t then 0 else ⊤

/-- The initial queue: all cells bearing the feature label, in row-major order. -/
def initQueue (R C : ℕ) (g : Grid) (t : CellType) : List (ℕ × ℕ) :=
  (List.range R).flatMap fun i =>
    (List.range C).filterMap fun j =>
      if cellAt g i j = t then some (i, j) else none

/-- The distance field for one feature label, as built by computeDistanceMaps.
The fuel 2 * (R * C) is proven sufficient for the queue to drain. -/
def computeDistanceMap (R C : ℕ) (g : Grid) (t : CellType) : DistMap :=
  (bfsAux R C (2 * (R * C)) (initDist R C g t, initQueue R C g t)).1

/-- The distance-field collection over all feature labels. -/
def computeDistanceMaps (R C : ℕ) (g : Grid) : DistMaps :=
  fun t => computeDistanceMap R C g t

/-- A cell lies inside the R-by-C grid. -/
def inRange (R C : ℕ) (p : ℕ × ℕ) : Prop := p.1 < R ∧ p.2 < C

instance (R C : ℕ) (p : ℕ × ℕ) : Decidable (inRange R C p) := by
  unfold inRange; infer_instance

/-- Two cells are 4-connected neighbors inside the grid. -/
def adjacent (R C : ℕ) (a b : ℕ × ℕ) : Prop :=
  inRange R C a ∧ inRange R C b ∧
    ((a.1 = b.1 ∧ (a.2 + 1 = b.2 ∨ b.2 + 1 = a.2)) ∨
     (a.2 = b.2 ∧ (a.1 + 1 = b.1 ∨ b.1 + 1 = a.1)))

/-- A walk of exactly n 4-connected steps from s to p. -/
def reachN (R C : ℕ) : ℕ → (ℕ × ℕ) → (ℕ × ℕ) → Prop
  | 0, s, p => s = p
  | n + 1, s, p => ∃ r, reachN R C n s r ∧ adjacent R C r p

/-- A cell bearing the feature label, inside the grid. -/
def isSeed (R C : ℕ) (g : Grid) (t : CellType) (p : ℕ × ℕ) : Prop :=
  inRange R C p ∧ cellAt g p.1 p.2 = t

instance (R C : ℕ) (g : Grid) (t : CellType) (p : ℕ × ℕ) :
    Decidable (isSeed R C g t p) := by
  unfold isSeed; infer_instance

instance (R C : ℕ) (a b : ℕ × ℕ) : Decidable (adjacent R C a b) := by
  unfold adjacent; infer_instance

/-- Some cell bearing the feature label reaches p in exactly n steps. -/
def hasWalk (R C : ℕ) (g : Grid) (t : CellType) (n : ℕ) (p : ℕ × ℕ) : Prop :=
  ∃ s, isSeed R C g t s ∧ reachN R C n s p

/-- The 5-by-5 grid of the specification example, with its single feature
cell at row 2, column 2. -/
def exampleGrid5 : Grid :=
  [[EMPTY, EMPTY, EMPTY, EMPTY, EMPTY],
   [EMPTY, EMPTY, EMPTY, EMPTY, EMPTY],
   [EMPTY, EMPTY, TRANSPORT, EMPTY, EMPTY],
   [EMPTY, EMPTY, EMPTY, EMPTY, EMPTY],
   [EMPTY, EMPTY, EMPTY, EMPTY, EMPTY]]

theorem updateD_self (d : DistMap) (i j : ℕ) (v : ℕ∞) : updateD d i j v i j = v := by
  simp [updateD]

theorem updateD_other (d : DistMap) (i j a b : ℕ) (v : ℕ∞) (h : ¬(a = i ∧ b = j)) :
    updateD d i j v a b = d a b := by
  simp [updateD, h]

theorem mem_neighborList_inRange {R C x y : ℕ} {c : ℕ × ℕ}
    (h : c ∈ neighborList R C x y) : inRange R C c := by
  simp only [neighborList, List.mem_map, List.mem_filter, List.mem_cons,
    List.not_mem_nil, or_false, decide_eq_true_eq] at h
  obtain ⟨e, ⟨he, hbnd⟩, hc⟩ := h
  subst hc
  rcases he with h1 | h1 | h1 | h1 <;> subst h1 <;>
    simp only [inRange] at * <;> omega

theorem mem_neighborList {R C x y : ℕ} (hx : x < R) (hy : y < C) (c : ℕ × ℕ) :
    c ∈ neighborList R C x y ↔ adjacent R C (x, y) c := by
  obtain ⟨a, b⟩ := c
  simp only [neighborList, List.mem_map, List.mem_filter, List.mem_cons,
    List.not_mem_nil, or_false, decide_eq_true_eq, adjacent, inRange,
    Prod.mk.injEq]
  constructor
  · rintro ⟨e, ⟨he, hbnd⟩, hc1, hc2⟩
    rcases he with h1 | h1 | h1 | h1 <;> subst h1 <;> simp only at hbnd hc1 hc2 <;>
      refine ⟨⟨hx, hy⟩, ?_, ?_⟩ <;> omega
  · rintro ⟨-, ⟨ha, hb⟩, hrel⟩
    rcases hrel with ⟨h1, h2 | h2⟩ | ⟨h1, h2 | h2⟩
    · exact ⟨((x : ℤ), (y : ℤ) + 1), ⟨by simp, by dsimp only; omega⟩,
        by dsimp only; omega, by dsimp only; omega⟩
    · exact ⟨((x : ℤ), (y : ℤ) - 1), ⟨by simp, by dsimp only; omega⟩,
        by dsimp only; omega, by dsimp only; omega⟩
    · exact ⟨((x : ℤ) + 1, (y : ℤ)), ⟨by simp, by dsimp only; omega⟩,
        by dsimp only; omega, by dsimp only; omega⟩
    · exact ⟨((x : ℤ) - 1, (y : ℤ)), ⟨by simp, by dsimp only; omega⟩,
        by dsimp only; omega, by dsimp only; omega⟩

theorem nodup_neighborList (R C x y : ℕ) : (neighborList R C x y).Nodup := by
  unfold neighborList
  apply List.Nodup.map_on
  · intro p hp q hq hpq
    simp only [List.mem_filter, decide_eq_true_eq] at hp hq
    simp only [Prod.mk.injEq] at hpq
    have h1 := hp.2
    have h2 := hq.2
    ext
    · omega
    · omega
  · apply List.Nodup.filter
    simp only [List.nodup_cons, List.mem_cons, List.not_mem_nil, or_false,
      List.nodup_nil, and_true, not_or, Prod.mk.injEq, not_and,
      not_false_eq_true]
    refine ⟨⟨?_, ?_, ?_⟩, ⟨?_, ?_⟩, ?_⟩ <;> omega

theorem self_not_mem_neighborList (R C x y : ℕ) : (x, y) ∉ neighborList R C x y := by
  intro h
  simp only [neighborList, List.mem_map, List.mem_filter, List.mem_cons,
    List.not_mem_nil, or_false, decide_eq_true_eq, Prod.mk.injEq] at h
  obtain ⟨e, ⟨he, hbnd⟩, h1, h2⟩ := h
  rcases he with h | h | h | h <;> subst h <;> simp only at hbnd h1 h2 <;> omega

/-- Relaxing a list of pairwise distinct target cells, none of them the popped
cell: cells that improve through the popped cell get the one-greater distance
and are appended to the queue in list order; everything else is unchanged. -/
theorem foldl_relax (x y : ℕ) (L : List (ℕ × ℕ)) (hnd : L.Nodup)
    (hx : (x, y) ∉ L) (d : DistMap) (q : List (ℕ × ℕ)) :
    (∀ a b, (L.foldl (relaxStep x y) (d, q)).1 a b
      = if (a, b) ∈ L ∧ d x y + 1 < d a b then d x y + 1 else d a b) ∧
    (L.foldl (relaxStep x y) (d, q)).2
      = q ++ L.filter (fun c => decide (d x y + 1 < d c.1 c.2)) := by
  induction L generalizing d q with
  | nil => simp
  | cons c L ih =>
    obtain ⟨cx, cy⟩ := c
    obtain ⟨hcL, hndL⟩ := List.nodup_cons.mp hnd
    have hxcL : (x, y) ∉ L := fun h => hx (List.mem_cons_of_mem _ h)
    have hxc : ¬(x = cx ∧ y = cy) := by
      rintro ⟨h1, h2⟩
      exact hx (by rw [h1, h2]; exact List.mem_cons_self _ _)
    by_cases hrel : d x y + 1 < d cx cy
    · have hstep : relaxStep x y (d, q) (cx, cy)
          = (updateD d cx cy (d x y + 1), q ++ [(cx, cy)]) := by
        simp [relaxStep, hrel]
      have hd1xy : updateD d cx cy (d x y + 1) x y = d x y :=
        updateD_other d cx cy x y _ hxc
      have hd1L : ∀ e ∈ L, updateD d cx cy (d x y + 1) e.1 e.2 = d e.1 e.2 := by
        intro e he
        apply updateD_other
        rintro ⟨h1, h2⟩
        apply hcL
        have : e = (cx, cy) := by
          obtain ⟨e1, e2⟩ := e
          simp only at h1 h2
          rw [h1, h2]
        rwa [this] at he
      obtain ⟨ihd, ihq⟩ := ih hndL hxcL (updateD d cx cy (d x y + 1)) (q ++ [(cx, cy)])
      constructor
      · intro a b
        rw [List.foldl_cons, hstep, ihd a b]
        by_cases hab : a = cx ∧ b = cy
        · obtain ⟨ha, hb⟩ := hab
          subst ha; subst hb
          have habL : (a, b) ∉ L := hcL
          rw [if_neg (by rintro ⟨h1, -⟩; exact habL h1)]
          rw [updateD_self]
          rw [if_pos ⟨List.mem_cons_self _ _, hrel⟩]
        · rw [updateD_other d cx cy a b _ hab, hd1xy]
          have hmem : (a, b) ∈ (cx, cy) :: L ↔ (a, b) ∈ L := by
            constructor
            · intro h
              rcases List.mem_cons.mp h with h | h
              · exact absurd (by simpa using h) (by simpa using hab)
              · exact h
            · exact List.mem_cons_of_mem _
          by_cases hL : (a, b) ∈ L ∧ d x y + 1 < d a b
          · rw [if_pos hL, if_pos ⟨hmem.mpr hL.1, hL.2⟩]
          · rw [if_neg hL, if_neg (by rintro ⟨h1, h2⟩; exact hL ⟨hmem.mp h1, h2⟩)]
      · rw [List.foldl_cons, hstep, ihq]
        have hfilter : L.filter (fun c => decide
              (updateD d cx cy (d x y + 1) x y + 1
                < updateD d cx cy (d x y + 1) c.1 c.2))
            = L.filter (fun c => decide (d x y + 1 < d c.1 c.2)) := by
          apply List.filter_congr
          intro e he
          rw [hd1xy, hd1L e he]
        rw [hfilter, List.filter_cons_of_pos (by simpa using hrel), List.append_assoc]
        rfl
    · have hstep : relaxStep x y (d, q) (cx, cy) = (d, q) := by
        simp [relaxStep, hrel]
      obtain ⟨ihd, ihq⟩ := ih hndL hxcL d q
      constructor
      · intro a b
        rw [List.foldl_cons, hstep, ihd a b]
        by_cases hab : a = cx ∧ b = cy
        · obtain ⟨ha, hb⟩ := hab
          subst ha; subst hb
          have habL : (a, b) ∉ L := hcL
          rw [if_neg (by rintro ⟨h1, -⟩; exact habL h1)]
          rw [if_neg (by rintro ⟨-, h2⟩; exact hrel h2)]
        · have hmem : (a, b) ∈ (cx, cy) :: L ↔ (a, b) ∈ L := by
            constructor
            · intro h
              rcases List.mem_cons.mp h with h | h
              · exact absurd (by simpa using h) (by simpa using hab)
              · exact h
            · exact List.mem_cons_of_mem _
          by_cases hL : (a, b) ∈ L ∧ d x y + 1 < d a b
          · rw [if_pos hL, if_pos ⟨hmem.mpr hL.1, hL.2⟩]
          · rw [if_neg hL, if_neg (by rintro ⟨h1, h2⟩; exact hL ⟨hmem.mp h1, h2⟩)]
      · rw [List.foldl_cons, hstep, ihq,
          List.filter_cons_of_neg (by simpa using hrel)]

/-- The loop invariant of the BFS: queue cells are in range with finite
distance, the queue is sorted with front-to-back spread at most one, finite
cells are within one of every queued cell, every finite distance is attained by
a walk from a seed, every adjacency either already satisfies the triangle bound
or its source is still queued, seeds hold distance zero, and out-of-range
cells hold the sentinel. -/
structure BfsInv (R C : ℕ) (g : Grid) (t : CellType) (d : DistMap)
    (q : List (ℕ × ℕ)) : Prop where
  qmem : ∀ p ∈ q, inRange R C p ∧ d p.1 p.2 ≠ ⊤
  sorted : q.Pairwise fun a b => d a.1 a.2 ≤ d b.1 b.2
  close : ∀ a ∈ q, ∀ b ∈ q, d a.1 a.2 ≤ d b.1 b.2 + 1
  finReach : ∀ c, inRange R C c → d c.1 c.2 ≠ ⊤ →
    ∀ p ∈ q, d c.1 c.2 ≤ d p.1 p.2 + 1
  attained : ∀ a b, d a b ≠ ⊤ →
    ∃ n : ℕ, d a b = (n : ℕ∞) ∧ hasWalk R C g t n (a, b)
  pending : ∀ a b, adjacent R C a b → d b.1 b.2 ≤ d a.1 a.2 + 1 ∨ a ∈ q
  seedZero : ∀ p, isSeed R C g t p → d p.1 p.2 = 0
  outTop : ∀ c, ¬ inRange R C c → d c.1 c.2 = ⊤

/-- Number of cells still holding the unreachable sentinel. -/
def topCount (R C : ℕ) (d : DistMap) : ℕ :=
  ((Finset.range R ×ˢ Finset.range C).filter fun p => d p.1 p.2 = ⊤).card

/-- Termination measure of the BFS loop: queue length plus sentinel count. -/
def bfsMeasure (R C : ℕ) (d : DistMap) (q : List (ℕ × ℕ)) : ℕ :=
  q.length + topCount R C d

theorem processCell_step {R C : ℕ} {g : Grid} {t : CellType} {d : DistMap}
    {x y : ℕ} {q : List (ℕ × ℕ)}
    (hq : BfsInv R C g t d ((x, y) :: q)) :
    BfsInv R C g t (processCell R C d q x y).1 (processCell R C d q x y).2 ∧
      bfsMeasure R C (processCell R C d q x y).1 (processCell R C d q x y).2 + 1
        = bfsMeasure R C d ((x, y) :: q) := by
  have hhead := hq.qmem (x, y) (List.mem_cons_self _ _)
  have hx : x < R := hhead.1.1
  have hy : y < C := hhead.1.2
  have hdxy : d x y ≠ ⊤ := hhead.2
  have hd1top : d x y + 1 ≠ ⊤ :=
    WithTop.add_ne_top.mpr ⟨hdxy, WithTop.one_ne_top⟩
  obtain ⟨dEq, qEq⟩ := foldl_relax x y (neighborList R C x y)
    (nodup_neighborList R C x y) (self_not_mem_neighborList R C x y) d q
  set S := (neighborList R C x y).filter
    (fun c => decide (d x y + 1 < d c.1 c.2)) with hS
  have memS : ∀ c : ℕ × ℕ, c ∈ S ↔
      c ∈ neighborList R C x y ∧ d x y + 1 < d c.1 c.2 := by
    intro c
    simp [hS, List.mem_filter]
  have dNew : ∀ c : ℕ × ℕ, c ∈ S → (processCell R C d q x y).1 c.1 c.2
      = d x y + 1 := by
    intro c hc
    obtain ⟨c1, c2⟩ := c
    rw [processCell, dEq c1 c2, if_pos ((memS (c1, c2)).mp hc)]
  have dOld : ∀ c : ℕ × ℕ, c ∉ S → (processCell R C d q x y).1 c.1 c.2
      = d c.1 c.2 := by
    intro c hc
    obtain ⟨c1, c2⟩ := c
    rw [processCell, dEq c1 c2, if_neg (fun hcon => hc ((memS (c1, c2)).mpr hcon))]
  have qNew : (processCell R C d q x y).2 = q ++ S := qEq
  have SinR : ∀ c ∈ S, inRange R C c := by
    intro c hc
    exact mem_neighborList_inRange ((memS c).mp hc).1
  have Sadj : ∀ c ∈ S, adjacent R C (x, y) c := by
    intro c hc
    exact (mem_neighborList hx hy c).mp ((memS c).mp hc).1
  have STop : ∀ c ∈ S, d c.1 c.2 = ⊤ := by
    intro c hc
    by_contra hfin
    have hle := hq.finReach c (SinR c hc) hfin (x, y) (List.mem_cons_self _ _)
    exact absurd (((memS c).mp hc).2.trans_le hle) (lt_irrefl _)
  have qfin : ∀ p ∈ q, inRange R C p ∧ d p.1 p.2 ≠ ⊤ := by
    intro p hp
    exact hq.qmem p (List.mem_cons_of_mem _ hp)
  have qS : ∀ p ∈ q, p ∉ S := by
    intro p hp hcon
    exact (qfin p hp).2 (STop p hcon)
  have dq : ∀ p ∈ q, (processCell R C d q x y).1 p.1 p.2 = d p.1 p.2 := by
    intro p hp
    exact dOld p (qS p hp)
  have dxyS : ((x, y) : ℕ × ℕ) ∉ S := by
    intro hcon
    exact self_not_mem_neighborList R C x y ((memS _).mp hcon).1
  have dxy : (processCell R C d q x y).1 x y = d x y := dOld (x, y) dxyS
  have dLe : ∀ a b : ℕ, (processCell R C d q x y).1 a b ≤ d a b := by
    intro a b
    rw [processCell, dEq a b]
    by_cases h : ((a, b) ∈ neighborList R C x y ∧ d x y + 1 < d a b)
    · rw [if_pos h]; exact h.2.le
    · rw [if_neg h]
  have sortedHead : ∀ p ∈ q, d x y ≤ d p.1 p.2 := by
    have := (List.pairwise_cons.mp hq.sorted).1
    intro p hp
    exact this p hp
  have sortedTail := (List.pairwise_cons.mp hq.sorted).2
  refine ⟨⟨?_, ?_, ?_, ?_, ?_, ?_, ?_, ?_⟩, ?_⟩
  · -- qmem
    intro p hp
    rw [qNew] at hp
    rcases List.mem_append.mp hp with hp | hp
    · exact ⟨(qfin p hp).1, by rw [dq p hp]; exact (qfin p hp).2⟩
    · exact ⟨SinR p hp, by rw [dNew p hp]; exact hd1top⟩
  · -- sorted
    rw [qNew, List.pairwise_append]
    refine ⟨?_, ?_, ?_⟩
    · refine sortedTail.imp_of_mem ?_
      intro a b ha hb hab
      rw [dq a ha, dq b hb]
      exact hab
    · apply List.pairwise_of_forall_mem_list
      intro a ha b hb
      rw [dNew a ha, dNew b hb]
    · intro a ha b hb
      rw [dq a ha, dNew b hb]
      exact hq.close a (List.mem_cons_of_mem _ ha) (x, y) (List.mem_cons_self _ _)
  · -- close
    intro a ha b hb
    rw [qNew] at ha hb
    rcases List.mem_append.mp ha with ha | ha <;>
      rcases List.mem_append.mp hb with hb | hb
    · rw [dq a ha, dq b hb]
      exact hq.close a (List.mem_cons_of_mem _ ha) b (List.mem_cons_of_mem _ hb)
    · rw [dq a ha, dNew b hb]
      exact (hq.close a (List.mem_cons_of_mem _ ha) (x, y)
        (List.mem_cons_self _ _)).trans le_self_add
    · rw [dNew a ha, dq b hb]
      exact add_le_add_right (sortedHead b hb) 1
    · rw [dNew a ha, dNew b hb]
      exact le_self_add
  · -- finReach
    intro c hcr hcf p hp
    rw [qNew] at hp
    by_cases hcS : c ∈ S
    · rw [dNew c hcS]
      rcases List.mem_append.mp hp with hp | hp
      · rw [dq p hp]
        exact add_le_add_right (sortedHead p hp) 1
      · rw [dNew p hp]
        exact le_self_add
    · rw [dOld c hcS]
      rw [dOld c hcS] at hcf
      rcases List.mem_append.mp hp with hp | hp
      · rw [dq p hp]
        exact hq.finReach c hcr hcf p (List.mem_cons_of_mem _ hp)
      · rw [dNew p hp]
        exact (hq.finReach c hcr hcf (x, y) (List.mem_cons_self _ _)).trans
          le_self_add
  · -- attained
    intro a b hne
    by_cases hab : ((a, b) : ℕ × ℕ) ∈ S
    · have hval := dNew (a, b) hab
      obtain ⟨n, hn, s, hs, hw⟩ := hq.attained x y hdxy
      refine ⟨n + 1, ?_, s, hs, (x, y), hw, Sadj (a, b) hab⟩
      rw [hval, hn]
      push_cast
      rfl
    · rw [dOld (a, b) hab]
      rw [dOld (a, b) hab] at hne
      exact hq.attained a b hne
  · -- pending
    intro a b hadj
    by_cases hax : a = (x, y)
    · subst hax
      left
      have hbN : b ∈ neighborList R C x y := (mem_neighborList hx hy b).mpr hadj
      by_cases hbS : b ∈ S
      · rw [dNew b hbS]
        obtain ⟨b1, b2⟩ := b
        rw [dxy]
      · have hble : d b.1 b.2 ≤ d x y + 1 := by
          by_contra hcon
          exact hbS ((memS b).mpr ⟨hbN, not_le.mp hcon⟩)
        obtain ⟨b1, b2⟩ := b
        rw [dxy]
        exact (dLe b1 b2).trans hble
    · rcases hq.pending a b hadj with hle | hmem
      · by_cases haS : a ∈ S
        · right
          rw [qNew]
          exact List.mem_append.mpr (Or.inr haS)
        · left
          obtain ⟨a1, a2⟩ := a
          rw [dOld (a1, a2) haS]
          obtain ⟨b1, b2⟩ := b
          exact (dLe b1 b2).trans hle
      · right
        rw [qNew]
        rcases List.mem_cons.mp hmem with h | h
        · exact absurd h hax
        · exact List.mem_append.mpr (Or.inl h)
  · -- seedZero
    intro p hp
    have h0 := hq.seedZero p hp
    have hpS : p ∉ S := by
      intro hcon
      rw [STop p hcon] at h0
      exact ENat.top_ne_zero h0
    rw [dOld p hpS]
    exact h0
  · -- outTop
    intro c hcr
    have hcS : c ∉ S := fun hcon => hcr (SinR c hcon)
    rw [dOld c hcS]
    exact hq.outTop c hcr
  · -- measure
    have SNodup : S.Nodup := (nodup_neighborList R C x y).filter _
    have hsub : S.toFinset ⊆
        (Finset.range R ×ˢ Finset.range C).filter fun p => d p.1 p.2 = ⊤ := by
      intro s hs
      rw [List.mem_toFinset] at hs
      rw [Finset.mem_filter]
      refine ⟨?_, STop s hs⟩
      rw [Finset.mem_product]
      exact ⟨Finset.mem_range.mpr (SinR s hs).1, Finset.mem_range.mpr (SinR s hs).2⟩
    have hTF : ((Finset.range R ×ˢ Finset.range C).filter
          fun p => (processCell R C d q x y).1 p.1 p.2 = ⊤)
        = ((Finset.range R ×ˢ Finset.range C).filter
          fun p => d p.1 p.2 = ⊤) \ S.toFinset := by
      ext c
      rw [Finset.mem_sdiff, Finset.mem_filter, Finset.mem_filter,
        List.mem_toFinset]
      constructor
      · rintro ⟨hcp, hct⟩
        by_cases hcS : c ∈ S
        · rw [dNew c hcS] at hct
          exact absurd hct hd1top
        · rw [dOld c hcS] at hct
          exact ⟨⟨hcp, hct⟩, hcS⟩
      · rintro ⟨⟨hcp, hct⟩, hcS⟩
        exact ⟨hcp, by rw [dOld c hcS]; exact hct⟩
    have hcard : topCount R C (processCell R C d q x y).1
        = topCount R C d - S.length := by
      rw [topCount, hTF, Finset.card_sdiff hsub,
        List.toFinset_card_of_nodup SNodup]
      rfl
    have hSle : S.length ≤ topCount R C d := by
      rw [← List.toFinset_card_of_nodup SNodup]
      exact Finset.card_le_card hsub
    rw [bfsMeasure, bfsMeasure, qNew, List.length_append, hcard,
      List.length_cons]
    omega

theorem bfsAux_drain {R C : ℕ} {g : Grid} {t : CellType} :
    ∀ (fuel : ℕ) (d : DistMap) (q : List (ℕ × ℕ)), BfsInv R C g t d q →
      bfsMeasure R C d q ≤ fuel →
      (bfsAux R C fuel (d, q)).2 = [] ∧
        BfsInv R C g t (bfsAux R C fuel (d, q)).1 [] := by
  intro fuel
  induction fuel with
  | zero =>
    intro d q hinv hm
    have hq : q = [] := by
      rw [bfsMeasure] at hm
      exact List.length_eq_zero.mp (by omega)
    subst hq
    exact ⟨rfl, hinv⟩
  | succ n ih =>
    intro d q hinv hm
    cases q with
    | nil => exact ⟨rfl, hinv⟩
    | cons p q =>
      obtain ⟨px, py⟩ := p
      obtain ⟨hinv2, hmeq⟩ := processCell_step hinv
      have hm2 : bfsMeasure R C (processCell R C d q px py).1
          (processCell R C d q px py).2 ≤ n := by omega
      have hstep : bfsAux R C (n + 1) (d, (px, py) :: q)
          = bfsAux R C n ((processCell R C d q px py).1,
              (processCell R C d q px py).2) := by
        show bfsAux R C (n + 1) (d, (px, py) :: q)
          = bfsAux R C n (processCell R C d q px py)
        rfl
      rw [hstep]
      exact ih (processCell R C d q px py).1 (processCell R C d q px py).2
        hinv2 hm2

theorem final_lower_bound {R C : ℕ} {g : Grid} {t : CellType} {d : DistMap}
    (hinv : BfsInv R C g t d []) :
    ∀ (n : ℕ) (s p : ℕ × ℕ), isSeed R C g t s → reachN R C n s p →
      d p.1 p.2 ≤ (n : ℕ∞) := by
  intro n
  induction n with
  | zero =>
    intro s p hs hr
    simp only [reachN] at hr
    subst hr
    rw [hinv.seedZero s hs]
    simp
  | succ m ih =>
    intro s p hs hr
    obtain ⟨r, hr1, hadj⟩ := hr
    have h1 : d p.1 p.2 ≤ d r.1 r.2 + 1 := by
      rcases hinv.pending r p hadj with h | h
      · exact h
      · exact absurd h (List.not_mem_nil _)
    calc d p.1 p.2 ≤ d r.1 r.2 + 1 := h1
      _ ≤ (m : ℕ∞) + 1 := add_le_add_right (ih s r hs hr1) 1
      _ = ((m + 1 : ℕ) : ℕ∞) := by push_cast; rfl

theorem mem_initQueue {R C : ℕ} {g : Grid} {t : CellType} {p : ℕ × ℕ} :
    p ∈ initQueue R C g t ↔ isSeed R C g t p := by
  obtain ⟨a, b⟩ := p
  simp only [initQueue, List.mem_flatMap, List.mem_filterMap, List.mem_range,
    isSeed, inRange]
  constructor
  · rintro ⟨i, hi, j, hj, hif⟩
    split_ifs at hif with h
    · simp only [Option.some.injEq, Prod.mk.injEq] at hif
      obtain ⟨h1, h2⟩ := hif
      subst h1
      subst h2
      exact ⟨⟨hi, hj⟩, h⟩
  · rintro ⟨⟨ha, hb⟩, hcell⟩
    exact ⟨a, ha, b, hb, by rw [if_pos hcell]⟩

theorem initDist_eq (R C : ℕ) (g : Grid) (t : CellType) (a b : ℕ) :
    initDist R C g t a b = if isSeed R C g t (a, b) then (0 : ℕ∞) else ⊤ := by
  simp only [initDist, isSeed, inRange]
  by_cases h : a < R ∧ b < C ∧ cellAt g a b = t
  · rw [if_pos h, if_pos ⟨⟨h.1, h.2.1⟩, h.2.2⟩]
  · rw [if_neg h, if_neg (fun hc => h ⟨hc.1.1, hc.1.2, hc.2⟩)]

theorem bfsInit_inv (R C : ℕ) (g : Grid) (t : CellType) :
    BfsInv R C g t (initDist R C g t) (initQueue R C g t) := by
  have hd0 : ∀ p : ℕ × ℕ, isSeed R C g t p → initDist R C g t p.1 p.2 = 0 := by
    intro p hp
    obtain ⟨a, b⟩ := p
    rw [initDist_eq, if_pos hp]
  have hdT : ∀ p : ℕ × ℕ, ¬ isSeed R C g t p →
      initDist R C g t p.1 p.2 = ⊤ := by
    intro p hp
    obtain ⟨a, b⟩ := p
    rw [initDist_eq, if_neg hp]
  refine ⟨?_, ?_, ?_, ?_, ?_, ?_, ?_, ?_⟩
  · intro p hp
    have hs := mem_initQueue.mp hp
    refine ⟨hs.1, ?_⟩
    rw [hd0 p hs]
    simp
  · apply List.pairwise_of_forall_mem_list
    intro a ha b hb
    rw [hd0 a (mem_initQueue.mp ha), hd0 b (mem_initQueue.mp hb)]
  · intro a ha b hb
    rw [hd0 a (mem_initQueue.mp ha)]
    exact zero_le _
  · intro c hcr hcf p hp
    by_cases hcs : isSeed R C g t c
    · rw [hd0 c hcs]
      exact zero_le _
    · exact absurd (hdT c hcs) hcf
  · intro a b hne
    by_cases hcs : isSeed R C g t (a, b)
    · refine ⟨0, ?_, (a, b), hcs, rfl⟩
      rw [hd0 (a, b) hcs]
      simp
    · exact absurd (hdT (a, b) hcs) hne
  · intro a b hadj
    by_cases hcs : isSeed R C g t a
    · right
      exact mem_initQueue.mpr hcs
    · left
      rw [hdT a hcs]
      simp
  · exact hd0
  · intro c hcr
    apply hdT
    intro hcs
    exact hcr hcs.1

theorem initMeasure_le (R C : ℕ) (g : Grid) (t : CellType) :
    bfsMeasure R C (initDist R C g t) (initQueue R C g t) ≤ 2 * (R * C) := by
  rw [bfsMeasure]
  have h1 : (initQueue R C g t).length ≤ R * C := by
    rw [initQueue, List.length_flatMap]
    have hbound : ∀ x ∈ (List.range R).map (fun i =>
        ((List.range C).filterMap fun j =>
          if cellAt g i j = t then some (i, j) else none).length), x ≤ C := by
      intro x hx
      obtain ⟨i, -, hix⟩ := List.mem_map.mp hx
      rw [← hix]
      calc ((List.range C).filterMap _).length ≤ (List.range C).length :=
            List.length_filterMap_le _ _
        _ = C := List.length_range C
    calc ((List.range R).map _).sum
        ≤ ((List.range R).map (fun i =>
            ((List.range C).filterMap fun j =>
              if cellAt g i j = t then some (i, j) else none).length)).length • C :=
          List.sum_le_card_nsmul _ C hbound
      _ = R * C := by
          rw [List.length_map, List.length_range, smul_eq_mul]
  have h2 : topCount R C (initDist R C g t) ≤ R * C := by
    rw [topCount]
    calc ((Finset.range R ×ˢ Finset.range C).filter _).card
        ≤ (Finset.range R ×ˢ Finset.range C).card := Finset.card_filter_le _ _
      _ = R * C := by rw [Finset.card_product, Finset.card_range, Finset.card_range]
  omega

theorem computeDistanceMap_inv (R C : ℕ) (g : Grid) (t : CellType) :
    BfsInv R C g t (computeDistanceMap R C g t) [] :=
  (bfsAux_drain (2 * (R * C)) (initDist R C g t) (initQueue R C g t)
    (bfsInit_inv R C g t) (initMeasure_le R C g t)).2

theorem reachN_inRange {R C : ℕ} {n : ℕ} {s p : ℕ × ℕ}
    (hs : inRange R C s) (hr : reachN R C n s p) : inRange R C p := by
  induction n generalizing p with
  | zero =>
    simp only [reachN] at hr
    subst hr
    exact hs
  | succ m ih =>
    obtain ⟨r, h1, hadj⟩ := hr
    exact hadj.2.1

/-- C2: for every grid and every feature label, the DistanceField builder
assigns each cell the minimum number of 4-connected grid steps to the nearest
cell bearing that label: the value is a lower bound of every walk length from
a seed, a finite value is attained by such a walk, a cell bearing the label
itself gets distance 0, a label occurring nowhere leaves every cell at the
unreachable sentinel, and on the 5-by-5 grid with the single feature cell at
row 2, column 2 the cell at row 0, column 0 gets 4. -/
theorem bfs_minimum_distance (R C : ℕ) (g : Grid) (t : CellType) :
    (∀ (n : ℕ) (p : ℕ × ℕ), hasWalk R C g t n p →
        computeDistanceMap R C g t p.1 p.2 ≤ (n : ℕ∞)) ∧
    (∀ a b : ℕ, computeDistanceMap R C g t a b ≠ ⊤ →
        ∃ n : ℕ, computeDistanceMap R C g t a b = (n : ℕ∞) ∧
          hasWalk R C g t n (a, b)) ∧
    (∀ p : ℕ × ℕ, isSeed R C g t p → computeDistanceMap R C g t p.1 p.2 = 0) ∧
    ((∀ p : ℕ × ℕ, ¬ isSeed R C g t p) →
        ∀ a b : ℕ, computeDistanceMap R C g t a b = ⊤) ∧
    (computeDistanceMap 5 5 exampleGrid5 TRANSPORT 0 0 = 4 ∧
      computeDistanceMap 5 5 exampleGrid5 TRANSPORT 2 2 = 0) := by
  have hinv := computeDistanceMap_inv R C g t
  refine ⟨?_, hinv.attained, ?_, ?_, by decide, by decide⟩
  · rintro n p ⟨s, hs, hw⟩
    exact final_lower_bound hinv n s p hs hw
  · intro p hp
    have h1 := final_lower_bound hinv 0 p p hp (by simp [reachN])
    simpa using h1
  · intro habs a b
    by_contra hne
    obtain ⟨n, -, s, hs, -⟩ := hinv.attained a b hne
    exact habs s hs

/-- Witness for C2: the walk hypothesis discharged by the explicit 4-step walk
from the feature cell at row 2, column 2 to the corner of the example grid. -/
theorem bfs_minimum_distance_witness :
    computeDistanceMap 5 5 exampleGrid5 TRANSPORT 0 0 ≤ ((4 : ℕ) : ℕ∞) :=
  (bfs_minimum_distance 5 5 exampleGrid5 TRANSPORT).1 4 (0, 0)
    ⟨(2, 2), by decide,
      (0, 1), ⟨(0, 2), ⟨(1, 2), ⟨(2, 2), rfl, by decide⟩, by decide⟩, by decide⟩,
      by decide⟩

/-- The C library RAND_MAX of the target platform. -/
def RANDMAX : ℕ := 2147483647

/-- Configuration of the annealer: grid dimensions, the read-only distance
fields and preference table, the model of the C exp routine, the random
stream, the cooldown threshold and cooling rate of optimiseGrid, and the
attempt bound of each selection loop. -/
structure AnnealCfg where
  rows : ℕ
  cols : ℕ
  dmaps : DistMaps
  prefs : CellType → List ℚ
  expf : ℚ → ℚ
  rs : ℕ → ℕ
  cooldown : ℚ
  coolingRate : ℚ
  selFuel : ℕ

/-- Mutable state of the annealing loop, with a cursor into the random
stream standing for the stream position of the rand calls so far. -/
structure AnnealState where
  grid : Grid
  currentScore : ℚ
  bestGrid : Grid
  bestScore : ℚ
  temperature : ℚ
  iteration : ℕ
  ridx : ℕ
deriving DecidableEq

/-- Swap the contents of two cells, as std swap does on the copied grid. -/
def swapCells (g : Grid) (x1 y1 x2 y2 : ℕ) : Grid :=
  setCell (setCell g x1 y1 (cellAt g x2 y2)) x2 y2 (cellAt g x1 y1)

/-- The do-while selection loop of optimiseGrid: draw a row and a column from
the random stream until the drawn cell holds an agent label, within the
attempt bound; returns the position and the advanced cursor. -/
def findAgentCell (cfg : AnnealCfg) (g : Grid) : ℕ → ℕ → Option (ℕ × ℕ × ℕ)
  | 0, _ => none
  | fuel + 1, i =>
    if isAgentCell (cellAt g (cfg.rs i % cfg.rows) (cfg.rs (i + 1) % cfg.cols))
    then some (cfg.rs i % cfg.rows, cfg.rs (i + 1) % cfg.cols, i + 2)
    else findAgentCell cfg g fuel (i + 2)

/-- The two selection loops of one iteration, returning both positions and
the advanced cursor. -/
def selectPositions (cfg : AnnealCfg) (g : Grid) (i : ℕ) :
    Option ((ℕ × ℕ) × (ℕ × ℕ) × ℕ) :=
  match findAgentCell cfg g cfg.selFuel i with
  | none => none
  | some (x1, y1, i1) =>
    match findAgentCell cfg g cfg.selFuel i1 with
    | none => none
    | some (x2, y2, i2) => some ((x1, y1), (x2, y2), i2)

/-- The uniform draw of the acceptance test: rand over RAND_MAX. -/
def randUnit (cfg : AnnealCfg) (i : ℕ) : ℚ := (cfg.rs i : ℚ) / (RANDMAX : ℚ)

/-- The acceptance condition of the source: the candidate is accepted when
the score delta is positive, or exp of delta over temperature exceeds the
uniform draw. -/
def metropolisAccept (expf : ℚ → ℚ) (delta T u : ℚ) : Bool :=
  decide (delta > 0) || decide (expf (delta / T) > u)

/-- One iteration body of optimiseGrid after selection: swap the two cells in
the copied grid, rescore, accept or reject by the Metropolis condition,
update the best snapshot inside the accept branch only, then cool and advance
the iteration counter.  The cursor advances by one more exactly when the
short-circuited acceptance test consumed the uniform draw. -/
def applyMove (cfg : AnnealCfg) (st : AnnealState)
    (p1 p2 : ℕ × ℕ) (i2 : ℕ) : AnnealState :=
  let newGrid := swapCells st.grid p1.1 p1.2 p2.1 p2.2
  let newScore := calculateScore cfg.rows cfg.cols newGrid cfg.dmaps cfg.prefs
  let delta := newScore - st.currentScore
  let ridx2 := if delta > 0 then i2 else i2 + 1
  if metropolisAccept cfg.expf delta st.temperature (randUnit cfg i2) then
    if newScore > st.bestScore then
      ⟨newGrid, newScore, newGrid, newScore,
        st.temperature * (1 - cfg.coolingRate), st.iteration + 1, ridx2⟩
    else
      ⟨newGrid, newScore, st.bestGrid, st.bestScore,
        st.temperature * (1 - cfg.coolingRate), st.iteration + 1, ridx2⟩
  else
    ⟨st.grid, st.currentScore, st.bestGrid, st.bestScore,
      st.temperature * (1 - cfg.coolingRate), st.iteration + 1, ridx2⟩

/-- One full iteration of the annealing loop: select the two agent cells,
then apply the move; none when a selection loop finds no agent cell within
its attempt bound. -/
def annealStep (cfg : AnnealCfg) (st : AnnealState) : Option AnnealState :=
  match selectPositions cfg st.grid st.ridx with
  | none => none
  | some (p1, p2, i2) => some (applyMove cfg st p1 p2 i2)

/-- The while loop of optimiseGrid with explicit fuel: while the temperature
exceeds the cooldown threshold, run one iteration. -/
def annealRun (cfg : AnnealCfg) : ℕ → AnnealState → Option AnnealState
  | 0, st => some st
  | n + 1, st =>
    if st.temperature > cfg.cooldown then
      match annealStep cfg st with
      | none => none
      | some st2 => annealRun cfg n st2
    else some st

/-- The state at entry of optimiseGrid: current and best score from the
initial full rescore, best grid a snapshot of the input grid. -/
def initAnnealState (cfg : AnnealCfg) (g : Grid) (T0 : ℚ) : AnnealState :=
  ⟨g, calculateScore cfg.rows cfg.cols g cfg.dmaps cfg.prefs,
    g, calculateScore cfg.rows cfg.cols g cfg.dmaps cfg.prefs, T0, 0, 0⟩

/-- Full optimiseGrid: run the loop, then leave the best snapshot in place of
the working grid. -/
def optimiseGrid (cfg : AnnealCfg) (g : Grid) (T0 : ℚ) (fuel : ℕ) :
    Option Grid :=
  (annealRun cfg fuel (initAnnealState cfg g T0)).map fun st => st.bestGrid

theorem getD_in_range {α : Type} (l : List α) (d : α) (i : ℕ)
    (hi : i < l.length) : l.getD i d = l.get ⟨i, hi⟩ := by
  rw [List.getD_eq_getElem?_getD, List.getElem?_eq_getElem hi]
  simp [List.get_eq_getElem]

theorem getD_eq_get (g : Grid) (i : ℕ) (hi : i < g.length) :
    g.getD i [] = g.get ⟨i, hi⟩ :=
  getD_in_range g [] i hi

theorem cellAt_setCell_other (g : Grid) (i j a b : ℕ) (v : CellType)
    (h : ¬(a = i ∧ b = j)) : cellAt (setCell g i j v) a b = cellAt g a b := by
  unfold cellAt setCell
  simp only [List.getD_eq_getElem?_getD]
  by_cases hai : a = i
  · subst hai
    have hbj : b ≠ j := fun hb => h ⟨rfl, hb⟩
    by_cases hlen : a < g.length
    · rw [List.getElem?_set_self hlen]
      simp only [Option.getD_some]
      rw [List.getElem?_set_ne (fun he => hbj he.symm)]
    · rw [List.set_eq_of_length_le (le_of_not_lt hlen)]
  · rw [List.getElem?_set_ne (fun he => hai he.symm)]

theorem cellAt_setCell_same (g : Grid) (i j : ℕ) (v : CellType)
    (hi : i < g.length) (hj : j < (g.getD i []).length) :
    cellAt (setCell g i j v) i j = v := by
  unfold cellAt setCell
  simp only [List.getD_eq_getElem?_getD] at hj ⊢
  rw [List.getElem?_set_self hi]
  simp only [Option.getD_some]
  rw [List.getElem?_set_self hj]
  rfl

theorem gridWF_setCell {R C : ℕ} {g : Grid} (hwf : gridWF R C g)
    (i j : ℕ) (v : CellType) : gridWF R C (setCell g i j v) := by
  obtain ⟨hlen, hrow⟩ := hwf
  by_cases hi : i < g.length
  · constructor
    · rw [setCell, List.length_set]
      exact hlen
    · intro r hr
      rcases List.mem_or_eq_of_mem_set hr with hr | hr
      · exact hrow r hr
      · subst hr
        rw [List.length_set, getD_eq_get g i hi]
        exact hrow _ (List.get_mem g _ _)
  · rw [setCell, List.set_eq_of_length_le (le_of_not_lt hi)]
    exact ⟨hlen, hrow⟩

theorem ms_set_row (l : List CellType) (n : ℕ) (b : CellType) :
    ∀ h : n < l.length,
      (↑(l.set n b) : Multiset CellType) + {l.get ⟨n, h⟩} = ↑l + {b} := by
  induction l generalizing n with
  | nil =>
    intro h
    simp at h
  | cons x t ih =>
    intro h
    cases n with
    | zero =>
      show (↑(b :: t) : Multiset CellType) + {x} = ↑(x :: t) + {b}
      rw [← Multiset.cons_coe, ← Multiset.cons_coe]
      rw [Multiset.cons_add, Multiset.cons_add]
      rw [← Multiset.singleton_add b, ← Multiset.singleton_add x]
      abel
    | succ m =>
      have hm : m < t.length := by simpa using h
      show (↑(x :: t.set m b) : Multiset CellType) + {t.get ⟨m, hm⟩}
        = ↑(x :: t) + {b}
      rw [← Multiset.cons_coe, ← Multiset.cons_coe, Multiset.cons_add,
        Multiset.cons_add, ih m hm]

theorem ms_set_grid (g : Grid) (i : ℕ) (r : List CellType) :
    ∀ h : i < g.length,
      (↑(g.set i r).flatten : Multiset CellType) + ↑(g.get ⟨i, h⟩)
        = ↑g.flatten + ↑r := by
  induction g generalizing i with
  | nil =>
    intro h
    simp at h
  | cons row rows ih =>
    intro h
    cases i with
    | zero =>
      show (↑(r :: rows).flatten : Multiset CellType) + ↑row
        = ↑((row :: rows).flatten) + ↑r
      rw [List.flatten_cons, List.flatten_cons,
        ← Multiset.coe_add, ← Multiset.coe_add]
      abel
    | succ m =>
      have hm : m < rows.length := by simpa using h
      show (↑(row :: rows.set m r).flatten : Multiset CellType)
          + ↑(rows.get ⟨m, hm⟩) = ↑((row :: rows).flatten) + ↑r
      rw [List.flatten_cons, List.flatten_cons,
        ← Multiset.coe_add, ← Multiset.coe_add,
        add_assoc, add_assoc, ih m hm]

theorem ms_setCell (g : Grid) (i j : ℕ) (v : CellType)
    (hi : i < g.length) (hj : j < (g.getD i []).length) :
    (↑(setCell g i j v).flatten : Multiset CellType) + {cellAt g i j}
      = ↑g.flatten + {v} := by
  have hrow := getD_eq_get g i hi
  have hj2 : j < (g.get ⟨i, hi⟩).length := hrow ▸ hj
  have hcell : cellAt g i j = (g.get ⟨i, hi⟩).get ⟨j, hj2⟩ := by
    unfold cellAt
    rw [hrow]
    exact getD_in_range (g.get ⟨i, hi⟩) EMPTY j hj2
  have hsc : setCell g i j v = g.set i ((g.get ⟨i, hi⟩).set j v) := by
    unfold setCell
    rw [hrow]
  have h1 := ms_set_grid g i ((g.get ⟨i, hi⟩).set j v) hi
  have h2 := ms_set_row (g.get ⟨i, hi⟩) j v hj2
  apply add_left_cancel (a := (↑(g.get ⟨i, hi⟩) : Multiset CellType))
  calc (↑(g.get ⟨i, hi⟩) : Multiset CellType)
        + ((↑(setCell g i j v).flatten : Multiset CellType) + {cellAt g i j})
      = ((↑(setCell g i j v).flatten : Multiset CellType)
          + ↑(g.get ⟨i, hi⟩)) + {cellAt g i j} := by abel
    _ = (↑g.flatten + ↑((g.get ⟨i, hi⟩).set j v)) + {cellAt g i j} := by
        rw [hsc, h1]
    _ = ↑g.flatten + (↑((g.get ⟨i, hi⟩).set j v)
          + {(g.get ⟨i, hi⟩).get ⟨j, hj2⟩}) := by rw [hcell, add_assoc]
    _ = ↑g.flatten + (↑(g.get ⟨i, hi⟩) + {v}) := by rw [h2]
    _ = ↑(g.get ⟨i, hi⟩) + (↑g.flatten + {v}) := by abel

theorem gridWF_rowlen {R C : ℕ} {g : Grid} (hwf : gridWF R C g) (i : ℕ)
    (hi : i < R) : (g.getD i []).length = C := by
  have hi2 : i < g.length := by rw [hwf.1]; exact hi
  rw [getD_eq_get g i hi2]
  exact hwf.2 _ (List.get_mem g _ _)

theorem gridWF_swapCells {R C : ℕ} {g : Grid} (hwf : gridWF R C g)
    (x1 y1 x2 y2 : ℕ) : gridWF R C (swapCells g x1 y1 x2 y2) :=
  gridWF_setCell (gridWF_setCell hwf x1 y1 (cellAt g x2 y2)) x2 y2
    (cellAt g x1 y1)

theorem ms_swapCells {R C : ℕ} {g : Grid} (hwf : gridWF R C g)
    {x1 y1 x2 y2 : ℕ} (h1 : x1 < R) (h2 : y1 < C) (h3 : x2 < R) (h4 : y2 < C) :
    (↑(swapCells g x1 y1 x2 y2).flatten : Multiset CellType) = ↑g.flatten := by
  have hx1 : x1 < g.length := by rw [hwf.1]; exact h1
  have hy1 : y1 < (g.getD x1 []).length := by rw [gridWF_rowlen hwf x1 h1]; exact h2
  have hwf1 : gridWF R C (setCell g x1 y1 (cellAt g x2 y2)) :=
    gridWF_setCell hwf x1 y1 (cellAt g x2 y2)
  have hx2 : x2 < (setCell g x1 y1 (cellAt g x2 y2)).length := by
    rw [hwf1.1]; exact h3
  have hy2 : y2 < ((setCell g x1 y1 (cellAt g x2 y2)).getD x2 []).length := by
    rw [gridWF_rowlen hwf1 x2 h3]; exact h4
  have e1 := ms_setCell g x1 y1 (cellAt g x2 y2) hx1 hy1
  have e2 := ms_setCell (setCell g x1 y1 (cellAt g x2 y2)) x2 y2
    (cellAt g x1 y1) hx2 hy2
  have hc : cellAt (setCell g x1 y1 (cellAt g x2 y2)) x2 y2 = cellAt g x2 y2 := by
    by_cases he : x2 = x1 ∧ y2 = y1
    · obtain ⟨ha, hb⟩ := he
      subst ha
      subst hb
      exact cellAt_setCell_same g x2 y2 (cellAt g x2 y2) hx1 hy1
    · rw [cellAt_setCell_other g x1 y1 x2 y2 (cellAt g x2 y2) he]
  rw [hc] at e2
  have e3 : (↑(swapCells g x1 y1 x2 y2).flatten : Multiset CellType)
      + {cellAt g x2 y2} = ↑g.flatten + {cellAt g x2 y2} := by
    calc (↑(swapCells g x1 y1 x2 y2).flatten : Multiset CellType)
          + {cellAt g x2 y2}
        = ↑(setCell g x1 y1 (cellAt g x2 y2)).flatten + {cellAt g x1 y1} := e2
      _ = ↑g.flatten + {cellAt g x2 y2} := e1
  exact add_right_cancel e3

/-- The multiset of agent labels on the grid. -/
def agentMS (g : Grid) : Multiset CellType :=
  Multiset.filter (fun c => isAgentCell c = true) ↑g.flatten

theorem findAgentCell_spec {cfg : AnnealCfg} {g : Grid} :
    ∀ {fuel i x y i2}, findAgentCell cfg g fuel i = some (x, y, i2) →
      isAgentCell (cellAt g x y) = true ∧
        (0 < cfg.rows → x < cfg.rows) ∧ (0 < cfg.cols → y < cfg.cols) := by
  intro fuel
  induction fuel with
  | zero =>
    intro i x y i2 h
    exact absurd h (by rw [findAgentCell]; exact Option.noConfusion)
  | succ n ih =>
    intro i x y i2 h
    rw [findAgentCell] at h
    split_ifs at h with hc
    · simp only [Option.some.injEq, Prod.mk.injEq] at h
      obtain ⟨hx, hy, -⟩ := h
      subst hx
      subst hy
      exact ⟨hc, fun hr => Nat.mod_lt _ hr, fun hcc => Nat.mod_lt _ hcc⟩
    · exact ih h

theorem selectPositions_spec {cfg : AnnealCfg} {g : Grid} {i : ℕ}
    {p1 p2 : ℕ × ℕ} {i2 : ℕ}
    (h : selectPositions cfg g i = some (p1, p2, i2)) :
    (isAgentCell (cellAt g p1.1 p1.2) = true ∧
      isAgentCell (cellAt g p2.1 p2.2) = true) ∧
    ((0 < cfg.rows → p1.1 < cfg.rows ∧ p2.1 < cfg.rows) ∧
      (0 < cfg.cols → p1.2 < cfg.cols ∧ p2.2 < cfg.cols)) := by
  unfold selectPositions at h
  split at h
  · exact absurd h Option.noConfusion
  · rename_i x1 y1 i1 heq1
    split at h
    · exact absurd h Option.noConfusion
    · rename_i x2 y2 j2 heq2
      simp only [Option.some.injEq, Prod.mk.injEq] at h
      obtain ⟨hp1, hp2, -⟩ := h
      subst hp1
      subst hp2
      obtain ⟨ha1, hr1, hc1⟩ := findAgentCell_spec heq1
      obtain ⟨ha2, hr2, hc2⟩ := findAgentCell_spec heq2
      exact ⟨⟨ha1, ha2⟩, ⟨fun hr => ⟨hr1 hr, hr2 hr⟩,
        fun hcc => ⟨hc1 hcc, hc2 hcc⟩⟩⟩

theorem applyMove_temp_iter (cfg : AnnealCfg) (st : AnnealState)
    (p1 p2 : ℕ × ℕ) (i2 : ℕ) :
    (applyMove cfg st p1 p2 i2).temperature
        = st.temperature * (1 - cfg.coolingRate) ∧
      (applyMove cfg st p1 p2 i2).iteration = st.iteration + 1 := by
  simp only [applyMove]
  split_ifs <;> exact ⟨rfl, rfl⟩

theorem applyMove_best_mono (cfg : AnnealCfg) (st : AnnealState)
    (p1 p2 : ℕ × ℕ) (i2 : ℕ) :
    st.bestScore ≤ (applyMove cfg st p1 p2 i2).bestScore := by
  simp only [applyMove]
  split_ifs <;> first
    | exact le_rfl
    | exact le_of_lt (by assumption)

/-- The invariant of reachable annealer states relative to the initial grid:
both grids are well formed with the same cell multiset as the initial grid,
cells that initially held no agent label are untouched in both grids, and the
current score never exceeds the best score. -/
def AnnealInv (cfg : AnnealCfg) (g0 : Grid) (st : AnnealState) : Prop :=
  gridWF cfg.rows cfg.cols st.grid ∧
  gridWF cfg.rows cfg.cols st.bestGrid ∧
  (↑st.grid.flatten : Multiset CellType) = ↑g0.flatten ∧
  (↑st.bestGrid.flatten : Multiset CellType) = ↑g0.flatten ∧
  (∀ i j, isAgentCell (cellAt g0 i j) = false →
    cellAt st.grid i j = cellAt g0 i j ∧
      cellAt st.bestGrid i j = cellAt g0 i j) ∧
  st.currentScore ≤ st.bestScore

theorem annealStep_inv {cfg : AnnealCfg} {g0 : Grid} {st st2 : AnnealState}
    (hrc : 0 < cfg.rows) (hcc : 0 < cfg.cols)
    (hinv : AnnealInv cfg g0 st) (h : annealStep cfg st = some st2) :
    AnnealInv cfg g0 st2 := by
  obtain ⟨hwf, hwfB, hms, hmsB, hfix, hcb⟩ := hinv
  unfold annealStep at h
  split at h
  · exact absurd h Option.noConfusion
  · rename_i p1 p2 i2 heq
    simp only [Option.some.injEq] at h
    subst h
    obtain ⟨⟨ha1, ha2⟩, ⟨hr, hc⟩⟩ := selectPositions_spec heq
    obtain ⟨hx1, hx2⟩ := hr hrc
    obtain ⟨hy1, hy2⟩ := hc hcc
    have hwfN : gridWF cfg.rows cfg.cols
        (swapCells st.grid p1.1 p1.2 p2.1 p2.2) :=
      gridWF_swapCells hwf _ _ _ _
    have hmsN : (↑(swapCells st.grid p1.1 p1.2 p2.1 p2.2).flatten :
        Multiset CellType) = ↑g0.flatten := by
      rw [ms_swapCells hwf hx1 hy1 hx2 hy2]
      exact hms
    have hfixN : ∀ i j, isAgentCell (cellAt g0 i j) = false →
        cellAt (swapCells st.grid p1.1 p1.2 p2.1 p2.2) i j = cellAt g0 i j := by
      intro i j hij
      have hcur := (hfix i j hij).1
      have hne1 : ¬(i = p1.1 ∧ j = p1.2) := by
        rintro ⟨e1, e2⟩
        subst e1
        subst e2
        rw [hcur] at ha1
        rw [hij] at ha1
        exact Bool.noConfusion ha1
      have hne2 : ¬(i = p2.1 ∧ j = p2.2) := by
        rintro ⟨e1, e2⟩
        subst e1
        subst e2
        rw [hcur] at ha2
        rw [hij] at ha2
        exact Bool.noConfusion ha2
      unfold swapCells
      rw [cellAt_setCell_other _ _ _ _ _ _ hne2,
        cellAt_setCell_other _ _ _ _ _ _ hne1, hcur]
    unfold AnnealInv
    simp only [applyMove]
    split_ifs <;>
      refine ⟨?_, ?_, ?_, ?_, ?_, ?_⟩ <;>
        first
          | exact hwfN
          | exact hwf
          | exact hwfB
          | exact hmsN
          | exact hms
          | exact hmsB
          | exact fun i j hij => ⟨hfixN i j hij, hfixN i j hij⟩
          | exact fun i j hij => ⟨hfixN i j hij, (hfix i j hij).2⟩
          | exact fun i j hij => ⟨(hfix i j hij).1, (hfix i j hij).2⟩
          | exact le_rfl
          | exact hcb
          | exact not_lt.mp (by assumption)

theorem annealRun_inv {cfg : AnnealCfg} {g0 : Grid}
    (hrc : 0 < cfg.rows) (hcc : 0 < cfg.cols) :
    ∀ (n : ℕ) (st st2 : AnnealState), AnnealInv cfg g0 st →
      annealRun cfg n st = some st2 → AnnealInv cfg g0 st2 := by
  intro n
  induction n with
  | zero =>
    intro st st2 hinv h
    simp only [annealRun, Option.some.injEq] at h
    rwa [← h]
  | succ m ih =>
    intro st st2 hinv h
    rw [annealRun] at h
    split_ifs at h with hguard
    · cases hstep : annealStep cfg st with
      | none =>
        rw [hstep] at h
        exact absurd h Option.noConfusion
      | some st1 =>
        rw [hstep] at h
        exact ih st1 st2 (annealStep_inv hrc hcc hinv hstep) h
    · simp only [Option.some.injEq] at h
      rwa [← h]

theorem annealRun_best_mono {cfg : AnnealCfg} :
    ∀ (n : ℕ) (st st2 : AnnealState), annealRun cfg n st = some st2 →
      st.bestScore ≤ st2.bestScore := by
  intro n
  induction n with
  | zero =>
    intro st st2 h
    simp only [annealRun, Option.some.injEq] at h
    rw [← h]
  | succ m ih =>
    intro st st2 h
    rw [annealRun] at h
    split_ifs at h with hguard
    · cases hstep : annealStep cfg st with
      | none =>
        rw [hstep] at h
        exact absurd h Option.noConfusion
      | some st1 =>
        rw [hstep] at h
        have hstep2 : st.bestScore ≤ st1.bestScore := by
          unfold annealStep at hstep
          split at hstep
          · exact absurd hstep Option.noConfusion
          · rename_i p1 p2 i2 heq
            simp only [Option.some.injEq] at hstep
            rw [← hstep]
            exact applyMove_best_mono cfg st p1 p2 i2
        exact hstep2.trans (ih st1 st2 h)
    · simp only [Option.some.injEq] at h
      rw [← h]

theorem applyMove_accepted (cfg : AnnealCfg) (st : AnnealState)
    (p1 p2 : ℕ × ℕ) (i2 : ℕ)
    (h : metropolisAccept cfg.expf
      (calculateScore cfg.rows cfg.cols (swapCells st.grid p1.1 p1.2 p2.1 p2.2)
        cfg.dmaps cfg.prefs - st.currentScore) st.temperature (randUnit cfg i2)
      = true) :
    (applyMove cfg st p1 p2 i2).grid = swapCells st.grid p1.1 p1.2 p2.1 p2.2 ∧
      (applyMove cfg st p1 p2 i2).currentScore
        = calculateScore cfg.rows cfg.cols
            (swapCells st.grid p1.1 p1.2 p2.1 p2.2) cfg.dmaps cfg.prefs := by
  simp only [applyMove]
  rw [if_pos h]
  split_ifs <;> exact ⟨rfl, rfl⟩

theorem applyMove_rejected (cfg : AnnealCfg) (st : AnnealState)
    (p1 p2 : ℕ × ℕ) (i2 : ℕ)
    (h : metropolisAccept cfg.expf
      (calculateScore cfg.rows cfg.cols (swapCells st.grid p1.1 p1.2 p2.1 p2.2)
        cfg.dmaps cfg.prefs - st.currentScore) st.temperature (randUnit cfg i2)
      = false) :
    applyMove cfg st p1 p2 i2 =
      ⟨st.grid, st.currentScore, st.bestGrid, st.bestScore,
        st.temperature * (1 - cfg.coolingRate), st.iteration + 1, i2 + 1⟩ := by
  have hnd : ¬(calculateScore cfg.rows cfg.cols
      (swapCells st.grid p1.1 p1.2 p2.1 p2.2) cfg.dmaps cfg.prefs
        - st.currentScore > 0) := by
    intro hd
    rw [metropolisAccept] at h
    simp only [Bool.or_eq_false_iff, decide_eq_false_iff_not] at h
    exact h.1 hd
  simp only [applyMove]
  rw [if_neg (fun hc => by rw [h] at hc; exact Bool.noConfusion hc)]
  rw [if_neg hnd]

/-- C3: in every iteration, the candidate is accepted, replacing the current
grid and score, exactly when delta is positive or the uniform draw is below
exp of delta over temperature; otherwise the grid and score are kept. -/
theorem metropolis_acceptance (cfg : AnnealCfg) :
    (∀ delta T u : ℚ,
      metropolisAccept cfg.expf delta T u = true ↔
        (delta > 0 ∨ u < cfg.expf (delta / T))) ∧
    (∀ (st st2 : AnnealState) (p1 p2 : ℕ × ℕ) (i2 : ℕ),
      selectPositions cfg st.grid st.ridx = some (p1, p2, i2) →
      annealStep cfg st = some st2 →
      ((metropolisAccept cfg.expf
          (calculateScore cfg.rows cfg.cols
            (swapCells st.grid p1.1 p1.2 p2.1 p2.2) cfg.dmaps cfg.prefs
            - st.currentScore) st.temperature (randUnit cfg i2) = true →
        st2.grid = swapCells st.grid p1.1 p1.2 p2.1 p2.2 ∧
          st2.currentScore = calculateScore cfg.rows cfg.cols
            (swapCells st.grid p1.1 p1.2 p2.1 p2.2) cfg.dmaps cfg.prefs) ∧
       (metropolisAccept cfg.expf
          (calculateScore cfg.rows cfg.cols
            (swapCells st.grid p1.1 p1.2 p2.1 p2.2) cfg.dmaps cfg.prefs
            - st.currentScore) st.temperature (randUnit cfg i2) = false →
        st2.grid = st.grid ∧ st2.currentScore = st.currentScore))) := by
  constructor
  · intro delta T u
    unfold metropolisAccept
    rw [Bool.or_eq_true, decide_eq_true_iff, decide_eq_true_iff]
  · intro st st2 p1 p2 i2 hsel hstep
    unfold annealStep at hstep
    rw [hsel] at hstep
    simp only [Option.some.injEq] at hstep
    subst hstep
    exact ⟨fun h => applyMove_accepted cfg st p1 p2 i2 h,
      fun h => by rw [applyMove_rejected cfg st p1 p2 i2 h]; exact ⟨rfl, rfl⟩⟩

/-- Concrete 2-by-2 grid used in witnesses: two agent cells, one fixed
feature cell, one empty cell. -/
def wGrid : Grid := [[RESIDENTIAL, OFFICE], [TRANSPORT, EMPTY]]

/-- Concrete witness configuration: sentinel distance fields, exp modelled as
the constant one function, all-zero random stream. -/
def wCfg : AnnealCfg :=
  ⟨2, 2, fun _ _ _ => ⊤, agentPreferences, fun _ => 1, fun _ => 0, 1, 1/2, 1⟩

/-- As wCfg but with exp modelled as the constant zero function, so that a
zero-delta move is rejected. -/
def wCfgR : AnnealCfg :=
  ⟨2, 2, fun _ _ _ => ⊤, agentPreferences, fun _ => 0, fun _ => 0, 1, 1/2, 1⟩

/-- The state after the first iteration of the run used in witnesses. -/
def wStep1 : AnnealState :=
  applyMove wCfg (initAnnealState wCfg wGrid 2) (0, 0) (0, 0) 4

theorem calculateScore_sentinel (R C : ℕ) (g : Grid) (dm : DistMaps)
    (prefs : CellType → List ℚ) (hdm : ∀ t i j, dm t i j = ⊤) :
    calculateScore R C g dm prefs = 0 := by
  rw [calculateScore_eq_specScore]
  unfold specScore specTerm
  refine Finset.sum_eq_zero (fun p _ => ?_)
  by_cases h : isAgentCell (cellAt g p.1 p.2) = true
  · rw [if_pos h]
    refine Finset.sum_eq_zero (fun k _ => ?_)
    rw [hdm]
    simp
  · rw [if_neg h]

theorem wSel : selectPositions wCfg (initAnnealState wCfg wGrid 2).grid
    (initAnnealState wCfg wGrid 2).ridx = some ((0, 0), (0, 0), 4) := by
  decide

theorem wSwap : swapCells (initAnnealState wCfg wGrid 2).grid 0 0 0 0
    = wGrid := by decide

theorem wNewScore : calculateScore wCfg.rows wCfg.cols
    (swapCells (initAnnealState wCfg wGrid 2).grid 0 0 0 0)
    wCfg.dmaps wCfg.prefs = 0 :=
  calculateScore_sentinel _ _ _ _ _ (fun _ _ _ => rfl)

theorem wCur : (initAnnealState wCfg wGrid 2).currentScore = 0 :=
  calculateScore_sentinel _ _ _ _ _ (fun _ _ _ => rfl)

theorem wAccept : metropolisAccept wCfg.expf
    (calculateScore wCfg.rows wCfg.cols
      (swapCells (initAnnealState wCfg wGrid 2).grid 0 0 0 0)
      wCfg.dmaps wCfg.prefs - (initAnnealState wCfg wGrid 2).currentScore)
    (initAnnealState wCfg wGrid 2).temperature (randUnit wCfg 4) = true := by
  rw [wNewScore, wCur]
  unfold metropolisAccept randUnit
  rw [Bool.or_eq_true, decide_eq_true_iff, decide_eq_true_iff]
  right
  show ((wCfg.rs 4 : ℚ) / (RANDMAX : ℚ)) < 1
  norm_num [wCfg, RANDMAX]

theorem wStepEq : annealStep wCfg (initAnnealState wCfg wGrid 2)
    = some wStep1 := by
  unfold annealStep
  rw [wSel]
  rfl

theorem wRunFull : annealRun wCfg 1 (initAnnealState wCfg wGrid 2)
    = some wStep1 := by
  rw [annealRun, if_pos (by decide :
    (initAnnealState wCfg wGrid 2).temperature > wCfg.cooldown), wStepEq]
  rfl

/-- Witness for C3 at a concrete accepted move of the witness run. -/
theorem metropolis_acceptance_witness :
    wStep1.grid = swapCells (initAnnealState wCfg wGrid 2).grid 0 0 0 0 ∧
      wStep1.currentScore = calculateScore wCfg.rows wCfg.cols
        (swapCells (initAnnealState wCfg wGrid 2).grid 0 0 0 0)
        wCfg.dmaps wCfg.prefs :=
  ((metropolis_acceptance wCfg).2 (initAnnealState wCfg wGrid 2) wStep1
    (0, 0) (0, 0) 4 wSel wStepEq).1 wAccept

/-- C4 (amended): each position selected for the swap currently holds an
agent label, so a cell holding a fixed-feature label or the empty label is
never chosen; the two positions however need not be distinct. -/
theorem swap_positions_agent (cfg : AnnealCfg) (g : Grid) (i : ℕ)
    (p1 p2 : ℕ × ℕ) (i2 : ℕ)
    (h : selectPositions cfg g i = some (p1, p2, i2)) :
    isAgentCell (cellAt g p1.1 p1.2) = true ∧
      isAgentCell (cellAt g p2.1 p2.2) = true :=
  (selectPositions_spec h).1

/-- Witness for C4 at the concrete selection of the witness run. -/
theorem swap_positions_agent_witness :
    isAgentCell (cellAt wGrid 0 0) = true ∧
      isAgentCell (cellAt wGrid 0 0) = true :=
  swap_positions_agent wCfg wGrid 0 (0, 0) (0, 0) 4 (by decide)

/-- C4 counterexample: the selection does not guarantee distinct positions;
with a single reachable agent cell and the all-zero stream both selections
return the same position. -/
theorem swap_positions_distinct_cex :
    ¬ (∀ (p1 p2 : ℕ × ℕ) (i2 : ℕ),
        selectPositions wCfg wGrid 0 = some (p1, p2, i2) → p1 ≠ p2) :=
  fun hcl => hcl (0, 0) (0, 0) 4 (by decide) rfl

/-- C5: the multiset of agent labels on the working grid after any number of
iterations, on the best-grid snapshot, and on the grid left in place when the
run ends, equals the multiset before the run started. -/
theorem agent_multiset_conserved (cfg : AnnealCfg) (g : Grid) (T0 : ℚ)
    (hrc : 0 < cfg.rows) (hcc : 0 < cfg.cols)
    (hwf : gridWF cfg.rows cfg.cols g) :
    (∀ (n : ℕ) (st2 : AnnealState),
      annealRun cfg n (initAnnealState cfg g T0) = some st2 →
        agentMS st2.grid = agentMS g ∧ agentMS st2.bestGrid = agentMS g) ∧
    (∀ (n : ℕ) (gfin : Grid), optimiseGrid cfg g T0 n = some gfin →
        agentMS gfin = agentMS g) := by
  have hinit : AnnealInv cfg g (initAnnealState cfg g T0) :=
    ⟨hwf, hwf, rfl, rfl, fun i j _ => ⟨rfl, rfl⟩, le_rfl⟩
  have hrun : ∀ (n : ℕ) (st2 : AnnealState),
      annealRun cfg n (initAnnealState cfg g T0) = some st2 →
        AnnealInv cfg g st2 :=
    fun n st2 h => annealRun_inv hrc hcc n _ st2 hinit h
  constructor
  · intro n st2 h
    obtain ⟨-, -, hms, hmsB, -, -⟩ := hrun n st2 h
    constructor
    · unfold agentMS
      rw [hms]
    · unfold agentMS
      rw [hmsB]
  · intro n gfin h
    unfold optimiseGrid at h
    cases hrun2 : annealRun cfg n (initAnnealState cfg g T0) with
    | none =>
      rw [hrun2] at h
      exact absurd h Option.noConfusion
    | some st2 =>
      rw [hrun2] at h
      simp only [Option.map_some', Option.some.injEq] at h
      obtain ⟨-, -, -, hmsB, -, -⟩ := hrun n st2 hrun2
      rw [← h]
      unfold agentMS
      rw [hmsB]

/-- Witness for C5 at the concrete witness run. -/
theorem agent_multiset_conserved_witness :
    agentMS wStep1.grid = agentMS wGrid ∧
      agentMS wStep1.bestGrid = agentMS wGrid :=
  (agent_multiset_conserved wCfg wGrid 2 (by decide) (by decide)
    (by decide)).1 1 wStep1 wRunFull

/-- C6: across every iteration, every cell that does not hold an agent label
keeps its value, on the working grid, on the best snapshot, and on the grid
left in place when the run ends. -/
theorem fixed_cells_immutable (cfg : AnnealCfg) (g : Grid) (T0 : ℚ)
    (hrc : 0 < cfg.rows) (hcc : 0 < cfg.cols)
    (hwf : gridWF cfg.rows cfg.cols g) :
    (∀ (n : ℕ) (st2 : AnnealState),
      annealRun cfg n (initAnnealState cfg g T0) = some st2 →
      ∀ i j, isAgentCell (cellAt g i j) = false →
        cellAt st2.grid i j = cellAt g i j ∧
          cellAt st2.bestGrid i j = cellAt g i j) ∧
    (∀ (n : ℕ) (gfin : Grid), optimiseGrid cfg g T0 n = some gfin →
      ∀ i j, isAgentCell (cellAt g i j) = false →
        cellAt gfin i j = cellAt g i j) := by
  have hinit : AnnealInv cfg g (initAnnealState cfg g T0) :=
    ⟨hwf, hwf, rfl, rfl, fun i j _ => ⟨rfl, rfl⟩, le_rfl⟩
  have hrun : ∀ (n : ℕ) (st2 : AnnealState),
      annealRun cfg n (initAnnealState cfg g T0) = some st2 →
        AnnealInv cfg g st2 :=
    fun n st2 h => annealRun_inv hrc hcc n _ st2 hinit h
  constructor
  · intro n st2 h i j hij
    exact (hrun n st2 h).2.2.2.2.1 i j hij
  · intro n gfin h i j hij
    unfold optimiseGrid at h
    cases hrun2 : annealRun cfg n (initAnnealState cfg g T0) with
    | none =>
      rw [hrun2] at h
      exact absurd h Option.noConfusion
    | some st2 =>
      rw [hrun2] at h
      simp only [Option.map_some', Option.some.injEq] at h
      rw [← h]
      exact ((hrun n st2 hrun2).2.2.2.2.1 i j hij).2

theorem applyMove_best (cfg : AnnealCfg) (st : AnnealState)
    (p1 p2 : ℕ × ℕ) (i2 : ℕ) (hcb : st.currentScore ≤ st.bestScore) :
    (applyMove cfg st p1 p2 i2).bestScore
        = max st.bestScore (applyMove cfg st p1 p2 i2).currentScore ∧
      (applyMove cfg st p1 p2 i2).bestGrid
        = (if st.bestScore < (applyMove cfg st p1 p2 i2).currentScore
            then (applyMove cfg st p1 p2 i2).grid else st.bestGrid) ∧
      (applyMove cfg st p1 p2 i2).currentScore
        ≤ (applyMove cfg st p1 p2 i2).bestScore := by
  simp only [applyMove]
  split_ifs <;>
    refine ⟨?_, ?_, ?_⟩ <;>
      first
        | rfl
        | exact (max_eq_right (le_of_lt (by assumption))).symm
        | exact (max_eq_left (not_lt.mp (by assumption))).symm
        | exact (max_eq_left hcb).symm
        | exact le_rfl
        | exact not_lt.mp (by assumption)
        | exact hcb
        | exact absurd (by assumption) (by assumption)
        | exact absurd (by assumption) (not_lt.mpr hcb)

/-- C7: the best score never decreases across the run, and the best-grid
snapshot is updated exactly when the newly accepted current score strictly
exceeds the previous best score. -/
theorem best_score_monotone (cfg : AnnealCfg) :
    (∀ (st st2 : AnnealState), annealStep cfg st = some st2 →
      st.currentScore ≤ st.bestScore →
      (st2.bestScore = max st.bestScore st2.currentScore ∧
        st2.bestGrid = (if st.bestScore < st2.currentScore then st2.grid
          else st.bestGrid) ∧
        st2.currentScore ≤ st2.bestScore)) ∧
    (∀ (n : ℕ) (st st2 : AnnealState), annealRun cfg n st = some st2 →
      st.bestScore ≤ st2.bestScore) := by
  constructor
  · intro st st2 hstep hcb
    unfold annealStep at hstep
    split at hstep
    · exact absurd hstep Option.noConfusion
    · rename_i p1 p2 i2 heq
      simp only [Option.some.injEq] at hstep
      subst hstep
      exact applyMove_best cfg st p1 p2 i2 hcb
  · exact fun n st st2 h => annealRun_best_mono n st st2 h

/-- Witness for C7 at the concrete accepted move of the witness run. -/
theorem best_score_monotone_witness :
    wStep1.bestScore
        = max (initAnnealState wCfg wGrid 2).bestScore wStep1.currentScore ∧
      wStep1.bestGrid = (if (initAnnealState wCfg wGrid 2).bestScore
          < wStep1.currentScore then wStep1.grid
        else (initAnnealState wCfg wGrid 2).bestGrid) ∧
      wStep1.currentScore ≤ wStep1.bestScore :=
  (best_score_monotone wCfg).1 (initAnnealState wCfg wGrid 2) wStep1
    wStepEq le_rfl

/-- Witness for C6 at the concrete witness run. -/
theorem fixed_cells_immutable_witness :
    cellAt wStep1.grid 1 0 = cellAt wGrid 1 0 ∧
      cellAt wStep1.bestGrid 1 0 = cellAt wGrid 1 0 :=
  (fixed_cells_immutable wCfg wGrid 2 (by decide) (by decide)
    (by decide)).1 1 wStep1 wRunFull 1 0 (by decide)

/-- Number of iterations the temperature loop makes before reaching the
cooldown threshold, within the given fuel: a function of the annealing
parameters alone, independent of grid, scores and random draws. -/
def coolSteps (cooldown r : ℚ) : ℕ → ℚ → ℕ
  | 0, _ => 0
  | n + 1, T =>
    if T > cooldown then coolSteps cooldown r n (T * (1 - r)) + 1 else 0

theorem annealStep_temp_iter {cfg : AnnealCfg} {st st2 : AnnealState}
    (h : annealStep cfg st = some st2) :
    st2.temperature = st.temperature * (1 - cfg.coolingRate) ∧
      st2.iteration = st.iteration + 1 := by
  unfold annealStep at h
  split at h
  · exact absurd h Option.noConfusion
  · rename_i p1 p2 i2 heq
    simp only [Option.some.injEq] at h
    subst h
    exact applyMove_temp_iter cfg st p1 p2 i2

theorem annealRun_iter_temp {cfg : AnnealCfg} :
    ∀ (n : ℕ) (st st2 : AnnealState), annealRun cfg n st = some st2 →
      st2.iteration = st.iteration
          + coolSteps cfg.cooldown cfg.coolingRate n st.temperature ∧
        st2.temperature = st.temperature * (1 - cfg.coolingRate)
          ^ coolSteps cfg.cooldown cfg.coolingRate n st.temperature := by
  intro n
  induction n with
  | zero =>
    intro st st2 h
    simp only [annealRun, Option.some.injEq] at h
    rw [← h]
    simp [coolSteps]
  | succ m ih =>
    intro st st2 h
    rw [annealRun] at h
    split_ifs at h with hguard
    · cases hstep : annealStep cfg st with
      | none =>
        rw [hstep] at h
        exact absurd h Option.noConfusion
      | some st1 =>
        rw [hstep] at h
        obtain ⟨hT1, hi1⟩ := annealStep_temp_iter hstep
        obtain ⟨iht, ihT⟩ := ih st1 st2 h
        rw [hT1] at iht ihT
        rw [hi1] at iht
        rw [coolSteps, if_pos hguard]
        constructor
        · rw [iht]
          omega
        · rw [ihT, pow_succ]
          ring
    · simp only [Option.some.injEq] at h
      rw [← h, coolSteps, if_neg hguard]
      exact ⟨rfl, by rw [pow_zero, mul_one]⟩

theorem annealRun_stable {cfg : AnnealCfg} {st : AnnealState}
    (h : ¬(st.temperature > cfg.cooldown)) (n : ℕ) :
    annealRun cfg n st = some st := by
  cases n with
  | zero => rfl
  | succ m => rw [annealRun, if_neg h]

theorem annealRun_frozen {cfg : AnnealCfg} :
    ∀ (N : ℕ) (st : AnnealState),
      st.temperature * (1 - cfg.coolingRate) ^ N ≤ cfg.cooldown →
      ∀ k, annealRun cfg (N + k) st = annealRun cfg N st := by
  intro N
  induction N with
  | zero =>
    intro st hT k
    rw [pow_zero, mul_one] at hT
    rw [Nat.zero_add, annealRun_stable (not_lt.mpr hT) k]
    rfl
  | succ m ih =>
    intro st hT k
    by_cases hg : st.temperature > cfg.cooldown
    · have he : m + 1 + k = (m + k) + 1 := by omega
      rw [he, annealRun, annealRun, if_pos hg, if_pos hg]
      cases hstep : annealStep cfg st with
      | none => rfl
      | some st1 =>
        obtain ⟨hT1, -⟩ := annealStep_temp_iter hstep
        refine ih st1 ?_ k
        rw [hT1]
        calc st.temperature * (1 - cfg.coolingRate)
              * (1 - cfg.coolingRate) ^ m
            = st.temperature * (1 - cfg.coolingRate) ^ (m + 1) := by
              rw [pow_succ]; ring
          _ ≤ cfg.cooldown := hT
    · rw [annealRun_stable hg, annealRun_stable hg]

theorem annealRun_cooled {cfg : AnnealCfg} :
    ∀ (N : ℕ) (st st2 : AnnealState),
      st.temperature * (1 - cfg.coolingRate) ^ N ≤ cfg.cooldown →
      annealRun cfg N st = some st2 → st2.temperature ≤ cfg.cooldown := by
  intro N
  induction N with
  | zero =>
    intro st st2 hT h
    simp only [annealRun, Option.some.injEq] at h
    rw [pow_zero, mul_one] at hT
    rw [← h]
    exact hT
  | succ m ih =>
    intro st st2 hT h
    rw [annealRun] at h
    split_ifs at h with hg
    · cases hstep : annealStep cfg st with
      | none =>
        rw [hstep] at h
        exact absurd h Option.noConfusion
      | some st1 =>
        rw [hstep] at h
        obtain ⟨hT1, -⟩ := annealStep_temp_iter hstep
        refine ih st1 st2 ?_ h
        rw [hT1]
        calc st.temperature * (1 - cfg.coolingRate)
              * (1 - cfg.coolingRate) ^ m
            = st.temperature * (1 - cfg.coolingRate) ^ (m + 1) := by
              rw [pow_succ]; ring
          _ ≤ cfg.cooldown := hT
    · simp only [Option.some.injEq] at h
      rw [← h]
      exact not_lt.mp hg

theorem cooling_reaches {T0 Tmin r : ℚ} (h1 : 0 < Tmin) (h2 : Tmin < T0)
    (h3 : 0 < r) (_h4 : r < 1) :
    ∃ N : ℕ, T0 * (1 - r) ^ N ≤ Tmin := by
  have hT0 : 0 < T0 := h1.trans h2
  obtain ⟨N, hN⟩ := exists_pow_lt_of_lt_one (div_pos h1 hT0)
    (by linarith : (1 : ℚ) - r < 1)
  refine ⟨N, le_of_lt ?_⟩
  have hmul := mul_lt_mul_of_pos_left hN hT0
  rw [mul_comm T0 (Tmin / T0), div_mul_cancel₀ Tmin hT0.ne'] at hmul
  exact hmul

/-- C8: for every starting temperature above the cooldown threshold, positive
threshold and cooling rate strictly between zero and one, the annealing loop
terminates: beyond some fuel bound the run result no longer changes, the
final temperature is at or below the threshold, and the number of iterations
executed equals a value computed from the threshold, the rate and the
starting temperature alone, independent of the grid contents, the scores and
the random draws. -/
theorem annealer_terminates (cfg : AnnealCfg) (st : AnnealState)
    (h1 : 0 < cfg.cooldown) (h2 : cfg.cooldown < st.temperature)
    (h3 : 0 < cfg.coolingRate) (h4 : cfg.coolingRate < 1) :
    ∃ N : ℕ, ∀ n : ℕ, N ≤ n →
      annealRun cfg n st = annealRun cfg N st ∧
      ∀ st2 : AnnealState, annealRun cfg n st = some st2 →
        st2.temperature ≤ cfg.cooldown ∧
        st2.iteration = st.iteration
          + coolSteps cfg.cooldown cfg.coolingRate n st.temperature := by
  obtain ⟨N, hN⟩ := cooling_reaches h1 h2 h3 h4
  refine ⟨N, fun n hn => ?_⟩
  obtain ⟨k, hk⟩ := Nat.exists_eq_add_of_le hn
  subst hk
  refine ⟨annealRun_frozen N st hN k, fun st2 hrun => ?_⟩
  have hfr := annealRun_frozen N st hN k
  rw [hfr] at hrun
  exact ⟨annealRun_cooled N st st2 hN hrun,
    (annealRun_iter_temp (N + k) st st2 (by rw [hfr]; exact hrun)).1⟩

/-- Witness for C8 at the concrete witness configuration. -/
theorem annealer_terminates_witness :
    ∃ N : ℕ, ∀ n : ℕ, N ≤ n →
      annealRun wCfg n (initAnnealState wCfg wGrid 2)
          = annealRun wCfg N (initAnnealState wCfg wGrid 2) ∧
      ∀ st2 : AnnealState,
        annealRun wCfg n (initAnnealState wCfg wGrid 2) = some st2 →
        st2.temperature ≤ wCfg.cooldown ∧
        st2.iteration = (initAnnealState wCfg wGrid 2).iteration
          + coolSteps wCfg.cooldown wCfg.coolingRate n
              (initAnnealState wCfg wGrid 2).temperature :=
  annealer_terminates wCfg (initAnnealState wCfg wGrid 2)
    (by norm_num [wCfg]) (by norm_num [wCfg, initAnnealState])
    (by norm_num [wCfg]) (by norm_num [wCfg])

/-- A grid bearing no agent label at all. -/
def gridE : Grid := [[EMPTY, EMPTY], [EMPTY, EMPTY]]

/-- Configuration for the degenerate-pool scenario. -/
def cfgE : AnnealCfg :=
  ⟨2, 2, fun _ _ _ => ⊤, agentPreferences, fun _ => 1, fun _ => 0, 1, 1, 5⟩

theorem findAgentCell_gridE : ∀ fuel i : ℕ,
    findAgentCell cfgE gridE fuel i = none := by
  intro fuel
  induction fuel with
  | zero =>
    intro i
    rfl
  | succ n ih =>
    intro i
    rw [findAgentCell]
    have hcond : isAgentCell (cellAt gridE (cfgE.rs i % cfgE.rows)
        (cfgE.rs (i + 1) % cfgE.cols)) = false := rfl
    rw [hcond, if_neg Bool.false_ne_true]
    exact ih (i + 2)

/-- C9: with no agent cell on the grid, the optimizer has no fail-fast path:
the selection loop never finds an agent cell for any attempt bound or cursor,
and once the loop body is entered the run never completes for any fuel —
modelling the unbounded do-while that hangs instead of reporting an error. -/
theorem degenerate_pool_hangs :
    (∀ fuel i : ℕ, findAgentCell cfgE gridE fuel i = none) ∧
    (∀ n : ℕ,
      annealRun cfgE (n + 1) (initAnnealState cfgE gridE 1000) = none) := by
  refine ⟨findAgentCell_gridE, fun n => ?_⟩
  rw [annealRun, if_pos (by decide :
      (initAnnealState cfgE gridE 1000).temperature > cfgE.cooldown)]
  have hstep : annealStep cfgE (initAnnealState cfgE gridE 1000) = none := by
    unfold annealStep selectPositions
    have hg : (initAnnealState cfgE gridE 1000).grid = gridE := rfl
    rw [hg, findAgentCell_gridE]
  rw [hstep]

/-- C10: in an iteration whose acceptance test rejects the candidate, the
working grid, the current score, the best-grid snapshot and the best score
are all left unchanged; only the temperature, the iteration counter and the
random cursor advance. -/
theorem rejected_iteration_frame (cfg : AnnealCfg) (st : AnnealState)
    (p1 p2 : ℕ × ℕ) (i2 : ℕ)
    (hsel : selectPositions cfg st.grid st.ridx = some (p1, p2, i2))
    (hrej : metropolisAccept cfg.expf
      (calculateScore cfg.rows cfg.cols
        (swapCells st.grid p1.1 p1.2 p2.1 p2.2) cfg.dmaps cfg.prefs
        - st.currentScore) st.temperature (randUnit cfg i2) = false) :
    annealStep cfg st = some
      ⟨st.grid, st.currentScore, st.bestGrid, st.bestScore,
        st.temperature * (1 - cfg.coolingRate), st.iteration + 1, i2 + 1⟩ := by
  unfold annealStep
  rw [hsel]
  show some (applyMove cfg st p1 p2 i2) = _
  rw [applyMove_rejected cfg st p1 p2 i2 hrej]

theorem wSelR : selectPositions wCfgR (initAnnealState wCfgR wGrid 2).grid
    (initAnnealState wCfgR wGrid 2).ridx = some ((0, 0), (0, 0), 4) := by
  decide

theorem wRej : metropolisAccept wCfgR.expf
    (calculateScore wCfgR.rows wCfgR.cols
      (swapCells (initAnnealState wCfgR wGrid 2).grid 0 0 0 0)
      wCfgR.dmaps wCfgR.prefs - (initAnnealState wCfgR wGrid 2).currentScore)
    (initAnnealState wCfgR wGrid 2).temperature (randUnit wCfgR 4) = false := by
  have hcur : (initAnnealState wCfgR wGrid 2).currentScore = 0 :=
    calculateScore_sentinel wCfgR.rows wCfgR.cols wGrid wCfgR.dmaps
      wCfgR.prefs (fun _ _ _ => rfl)
  rw [calculateScore_sentinel wCfgR.rows wCfgR.cols _ wCfgR.dmaps wCfgR.prefs
      (fun _ _ _ => rfl), hcur]
  unfold metropolisAccept randUnit
  simp only [Bool.or_eq_false_iff, decide_eq_false_iff_not]
  constructor
  · norm_num
  · norm_num [wCfgR, RANDMAX]

/-- Witness for C10 at a concrete rejected move. -/
theorem rejected_iteration_frame_witness :
    annealStep wCfgR (initAnnealState wCfgR wGrid 2) = some
      ⟨(initAnnealState wCfgR wGrid 2).grid,
        (initAnnealState wCfgR wGrid 2).currentScore,
        (initAnnealState wCfgR wGrid 2).bestGrid,
        (initAnnealState wCfgR wGrid 2).bestScore,
        (initAnnealState wCfgR wGrid 2).temperature * (1 - wCfgR.coolingRate),
        (initAnnealState wCfgR wGrid 2).iteration + 1, 5⟩ :=
  rejected_iteration_frame wCfgR (initAnnealState wCfgR wGrid 2)
    (0, 0) (0, 0) 4 wSelR wRej

end LandUse
